import Mathlib

/-!
A verification development for the task scheduler in `task_manage.py`.

The Python source is a single function `schedule_tasks` over a list of `Task`
records.  The embedding below translates it shallowly:

* Python dictionaries (`task_map`, `in_degree`, the `successors`
  defaultdict) are modelled as total functions `String → _` built by
  left-to-right folds, so that later entries overwrite earlier ones exactly
  as Python dict construction does.  Keys that Python never touches map to
  the fold's base value; every lookup the loop performs is at a key that is
  present in the Python dict, so the base value is never observed.
* Python's stable `list.sort(key=lambda t: t.deadline)` / `sorted(...)` is
  modelled by `sortByDeadline`, a stable insertion sort; its two
  characterising properties (sorted by deadline, order of equal-deadline
  elements preserved) are proved below.
* The `while ready_queue:` loop is modelled by `schedLoop` with an explicit
  iteration budget of `tasks.length`; the theorem `finalState_ready_nil`
  proves the queue always empties within that many iterations, so the
  budgeted loop and the unbounded Python loop compute the same final state.
* The mutable `start_time` / `finish_time` fields are represented by the
  `SchedEntry` records appended to the output list: a task that is never
  scheduled receives no entry, which is exactly the "fields stay `None`"
  situation of the source.
-/

namespace TaskManage

structure Task where
  name : String
  duration : Int
  deadline : Int
  dependencies : List String
deriving Repr, DecidableEq

/-- One scheduled task together with the start/finish times the loop
assigned to it. -/
structure SchedEntry where
  task : Task
  start : Int
  finish : Int
deriving Repr, DecidableEq

/-- Pointwise update of a function-modelled dictionary
(`m[k] = v` in Python). -/
def updMap {α : Type} (m : String → α) (k : String) (v : α) : String → α :=
  fun x => if x = k then v else m x

/-- `task_map = {t.name: t for t in tasks}` (later entries overwrite). -/
def buildTaskMap (tasks : List Task) : String → Option Task :=
  tasks.foldl (fun m t => updMap m t.name (some t)) (fun _ => none)

/-- `in_degree = {t.name: len(t.dependencies) for t in tasks}`. -/
def buildInDeg (tasks : List Task) : String → Int :=
  tasks.foldl (fun m t => updMap m t.name (t.dependencies.length : Int)) (fun _ => 0)

/-- `successors = defaultdict(list); for t in tasks: for d in t.dependencies:
successors[d].append(t.name)`. -/
def buildSucc (tasks : List Task) : String → List String :=
  tasks.foldl
    (fun m t =>
      t.dependencies.foldl (fun m d => updMap m d (m d ++ [t.name])) m)
    (fun _ => [])

/-- Insert a task into a deadline-sorted list, before the first element
whose deadline is not smaller: this is the insertion step of a stable
ascending sort, the contract of Python's `list.sort(key=...)`. -/
def insertByDeadline (t : Task) : List Task → List Task
  | [] => [t]
  | u :: us =>
    if t.deadline ≤ u.deadline then t :: u :: us else u :: insertByDeadline t us

/-- Stable ascending sort by deadline, modelling Python's
`sorted(..., key=lambda t: t.deadline)` and `.sort(key=...)`. -/
def sortByDeadline (l : List Task) : List Task :=
  l.foldr insertByDeadline []

/-- The inner `for successor_name in successors[current_task.name]:` loop:
decrement each successor's in-degree and append the task to the ready queue
exactly when the decremented value reaches 0. -/
def processSuccessors (task_map : String → Option Task)
    (succNames : List String) (ready : List Task) (in_degree : String → Int) :
    List Task × (String → Int) :=
  succNames.foldl
    (fun acc n =>
      let d := acc.2 n - 1
      let m := updMap acc.2 n d
      if d = 0 then
        match task_map n with
        | some t => (acc.1 ++ [t], m)
        | none => (acc.1, m)
      else (acc.1, m))
    (ready, in_degree)

/-- The mutable state of the scheduling loop. -/
structure SState where
  ready : List Task
  in_degree : String → Int
  time : Int
  sched : List SchedEntry

/-- One iteration of the main loop, after the head `cur` of the ready queue
has been popped (`rest` is the remainder of the queue): assign
`start = current_time`, `finish = current_time + duration`, advance the
clock, append to the output, update successor in-degrees, and re-sort the
queue. -/
def schedStep (task_map : String → Option Task) (succs : String → List String)
    (cur : Task) (rest : List Task) (st : SState) : SState :=
  let finishT := st.time + cur.duration
  let p := processSuccessors task_map (succs cur.name) rest st.in_degree
  ⟨sortByDeadline p.1, p.2, finishT, st.sched ++ [⟨cur, st.time, finishT⟩]⟩

/-- The `while ready_queue:` loop, with an explicit iteration budget.
`finalState_ready_nil` below proves a budget of `tasks.length` always
suffices to empty the queue, so this is extensionally the Python loop. -/
def schedLoop (task_map : String → Option Task) (succs : String → List String) :
    Nat → SState → SState
  | 0, st => st
  | fuel + 1, st =>
    match st.ready with
    | [] => st
    | cur :: rest => schedLoop task_map succs fuel (schedStep task_map succs cur rest st)

/-- The loop state just before the first iteration: the ready queue holds
the zero-in-degree tasks sorted by deadline, the clock is 0, nothing is
scheduled. -/
def initState (tasks : List Task) : SState :=
  ⟨sortByDeadline (tasks.filter (fun t => decide (buildInDeg tasks t.name = 0))),
    buildInDeg tasks, 0, []⟩

/-- The loop state after the main loop has run. -/
def finalState (tasks : List Task) : SState :=
  schedLoop (buildTaskMap tasks) (buildSucc tasks) tasks.length (initState tasks)

/-- `schedule_tasks` from `task_manage.py`: returns the scheduled tasks (in
order, with start/finish times), the makespan (`current_time` at loop
exit), and the total tardiness (sum of `finish_time - deadline` over late
scheduled tasks; every scheduled entry carries a finish time, so the
`is not None` guard of the source is always true on this sum). -/
def schedule_tasks (tasks : List Task) : List SchedEntry × Int × Int :=
  let final := finalState tasks
  let makespan := final.time
  let total_tardiness := final.sched.foldl
    (fun acc e =>
      if e.task.deadline < e.finish then acc + (e.finish - e.task.deadline) else acc) 0
  (final.sched, makespan, total_tardiness)

/-- Names of the scheduled tasks, in schedule order. -/
def schedNames (sched : List SchedEntry) : List String :=
  sched.map fun e => e.task.name

/-- The example task set from the `__main__` block of the source. -/
def exTasks : List Task :=
  [⟨"A", 3, 10, []⟩, ⟨"B", 2, 8, ["A"]⟩, ⟨"C", 4, 12, ["A"]⟩,
   ⟨"D", 1, 11, ["B", "C"]⟩, ⟨"E", 5, 7, []⟩]

/-! ### The stable sort: permutation and stability -/

theorem insertByDeadline_perm (t : Task) (l : List Task) :
    List.Perm (insertByDeadline t l) (t :: l) := by
  induction l with
  | nil => rfl
  | cons u us ih =>
    simp only [insertByDeadline]
    split
    · rfl
    · exact (ih.cons u).trans (List.Perm.swap t u us)

theorem sortByDeadline_perm (l : List Task) : List.Perm (sortByDeadline l) l := by
  induction l with
  | nil => rfl
  | cons t ts ih =>
    show List.Perm (insertByDeadline t (sortByDeadline ts)) (t :: ts)
    exact (insertByDeadline_perm t _).trans (ih.cons t)

theorem mem_sortByDeadline {x : Task} {l : List Task} :
    x ∈ sortByDeadline l ↔ x ∈ l :=
  (sortByDeadline_perm l).mem_iff

theorem length_sortByDeadline (l : List Task) :
    (sortByDeadline l).length = l.length :=
  (sortByDeadline_perm l).length_eq

theorem sublist_insertByDeadline (t : Task) (l : List Task) :
    List.Sublist l (insertByDeadline t l) := by
  induction l with
  | nil => exact List.nil_sublist _
  | cons u us ih =>
    simp only [insertByDeadline]
    split
    · exact List.sublist_cons_self t (u :: us)
    · exact ih.cons₂ u

theorem insertByDeadline_pair {X Y : Task} (h : X.deadline = Y.deadline) :
    ∀ {l : List Task}, Y ∈ l → List.Sublist [X, Y] (insertByDeadline X l) := by
  intro l
  induction l with
  | nil => intro hY; cases hY
  | cons u us ih =>
    intro hY
    simp only [insertByDeadline]
    split
    · exact (List.singleton_sublist.mpr hY).cons₂ X
    · rename_i hu
      rcases List.mem_cons.mp hY with rfl | hY
      · exact absurd (le_of_eq h) hu
      · exact (ih hY).cons u

theorem sortByDeadline_stable {X Y : Task} (h : X.deadline = Y.deadline) :
    ∀ {l : List Task}, List.Sublist [X, Y] l → List.Sublist [X, Y] (sortByDeadline l) := by
  intro l
  induction l with
  | nil => intro hs; simp at hs
  | cons a l' ih =>
    intro hs
    show List.Sublist [X, Y] (insertByDeadline a (sortByDeadline l'))
    cases hs with
    | cons _ h' => exact (ih h').trans (sublist_insertByDeadline a _)
    | cons₂ _ h' =>
      exact insertByDeadline_pair h (mem_sortByDeadline.mpr (List.singleton_sublist.mp h'))

/-! ### Lookup lemmas for the function-modelled dictionaries -/

theorem updMap_same {α : Type} (m : String → α) (k : String) (v : α) :
    updMap m k v k = v := by
  simp [updMap]

theorem updMap_other {α : Type} (m : String → α) {k x : String} (v : α) (h : x ≠ k) :
    updMap m k v x = m x := by
  simp [updMap, h]

theorem foldl_updMap_no_key {α : Type} (f : Task → α) :
    ∀ (ts : List Task) (m : String → α) (n : String), (∀ t ∈ ts, t.name ≠ n) →
      ts.foldl (fun m t => updMap m t.name (f t)) m n = m n := by
  intro ts
  induction ts with
  | nil => intro m n _; rfl
  | cons t ts ih =>
    intro m n h
    simp only [List.foldl_cons]
    rw [ih _ _ (fun u hu => h u (List.mem_cons_of_mem t hu))]
    exact updMap_other _ _ (Ne.symm (h t (List.mem_cons_self t ts)))

theorem foldl_updMap_lookup {α : Type} (f : Task → α) :
    ∀ (ts : List Task) (m : String → α) (t : Task), t ∈ ts →
      (ts.map Task.name).Nodup →
      ts.foldl (fun m t => updMap m t.name (f t)) m t.name = f t := by
  intro ts
  induction ts with
  | nil => intro m t h _; cases h
  | cons u us ih =>
    intro m t ht hnd
    simp only [List.map_cons, List.nodup_cons] at hnd
    rcases List.mem_cons.mp ht with rfl | ht
    · simp only [List.foldl_cons]
      rw [foldl_updMap_no_key f us _ _ ?_, updMap_same]
      intro v hv he
      exact hnd.1 (he ▸ List.mem_map_of_mem Task.name hv)
    · simp only [List.foldl_cons]
      exact ih _ t ht hnd.2

theorem buildInDeg_eq {tasks : List Task} {t : Task}
    (hnd : (tasks.map Task.name).Nodup) (ht : t ∈ tasks) :
    buildInDeg tasks t.name = (t.dependencies.length : Int) :=
  foldl_updMap_lookup _ tasks _ t ht hnd

theorem buildTaskMap_eq {tasks : List Task} {t : Task}
    (hnd : (tasks.map Task.name).Nodup) (ht : t ∈ tasks) :
    buildTaskMap tasks t.name = some t :=
  foldl_updMap_lookup _ tasks _ t ht hnd

theorem foldl_taskMap_mem :
    ∀ (ts : List Task) (m : String → Option Task) (n : String) (t : Task),
      ts.foldl (fun m u => updMap m u.name (some u)) m n = some t →
      t ∈ ts ∨ m n = some t := by
  intro ts
  induction ts with
  | nil => intro m n t h; exact Or.inr h
  | cons u us ih =>
    intro m n t h
    simp only [List.foldl_cons] at h
    rcases ih _ n t h with hm | hm
    · exact Or.inl (List.mem_cons_of_mem u hm)
    · by_cases hn : n = u.name
      · subst hn
        rw [updMap_same] at hm
        exact Or.inl (List.mem_cons.mpr (Or.inl (Option.some_injective _ hm).symm))
      · rw [updMap_other _ _ hn] at hm
        exact Or.inr hm

theorem buildTaskMap_mem {tasks : List Task} {n : String} {t : Task}
    (h : buildTaskMap tasks n = some t) : t ∈ tasks := by
  rcases foldl_taskMap_mem tasks _ n t h with hm | hm
  · exact hm
  · cases hm

theorem buildInDeg_nonneg :
    ∀ (ts : List Task) (m : String → Int), (∀ x, 0 ≤ m x) →
      ∀ n, 0 ≤ ts.foldl (fun m t => updMap m t.name (t.dependencies.length : Int)) m n := by
  intro ts
  induction ts with
  | nil => intro m h n; exact h n
  | cons t ts ih =>
    intro m h n
    simp only [List.foldl_cons]
    refine ih _ ?_ n
    intro x
    by_cases hx : x = t.name
    · subst hx; rw [updMap_same]; exact Int.natCast_nonneg _
    · rw [updMap_other _ _ hx]; exact h x

theorem buildInDeg_nonneg_apply (tasks : List Task) (n : String) :
    0 ≤ buildInDeg tasks n :=
  buildInDeg_nonneg tasks _ (fun _ => le_refl 0) n

/-! ### Closed form of the successor map -/

/-- Closed form of `buildSucc`: for a key `c`, the successor list is the
input-ordered concatenation, over the tasks `t`, of one copy of `t.name`
per occurrence of `c` in `t.dependencies`. -/
def succList (tasks : List Task) (c : String) : List String :=
  (tasks.map fun t => List.replicate (t.dependencies.count c) t.name).flatten

theorem succList_nil (c : String) : succList [] c = [] := rfl

theorem succList_cons (u : Task) (us : List Task) (c : String) :
    succList (u :: us) c =
      List.replicate (u.dependencies.count c) u.name ++ succList us c := rfl

theorem buildSucc_inner :
    ∀ (deps : List String) (m : String → List String) (nm : String) (c : String),
      deps.foldl (fun m d => updMap m d (m d ++ [nm])) m c =
        m c ++ List.replicate (deps.count c) nm := by
  intro deps
  induction deps with
  | nil => intro m nm c; simp
  | cons d ds ih =>
    intro m nm c
    simp only [List.foldl_cons]
    rw [ih]
    by_cases hd : d = c
    · subst hd
      rw [updMap_same, List.count_cons_self, List.replicate_succ, List.append_assoc]
      rfl
    · rw [updMap_other _ _ (Ne.symm hd), List.count_cons_of_ne (fun he => hd he.symm)]

theorem buildSucc_aux :
    ∀ (ts : List Task) (m : String → List String) (c : String),
      ts.foldl
        (fun m t => t.dependencies.foldl (fun m d => updMap m d (m d ++ [t.name])) m) m c =
        m c ++ succList ts c := by
  intro ts
  induction ts with
  | nil => intro m c; simp [succList]
  | cons t ts ih =>
    intro m c
    simp only [List.foldl_cons]
    rw [ih, buildSucc_inner]
    simp [succList, List.append_assoc]

theorem buildSucc_eq (tasks : List Task) (c : String) :
    buildSucc tasks c = succList tasks c := by
  have := buildSucc_aux tasks (fun _ => []) c
  simpa [buildSucc] using this

theorem mem_succList {tasks : List Task} {c n : String}
    (h : n ∈ succList tasks c) : n ∈ tasks.map Task.name := by
  rcases List.mem_flatten.mp h with ⟨blk, hblk, hn⟩
  rcases List.mem_map.mp hblk with ⟨t, ht, rfl⟩
  rcases List.eq_of_mem_replicate hn with rfl
  exact List.mem_map_of_mem Task.name ht

theorem count_succList {tasks : List Task} {t : Task}
    (hnd : (tasks.map Task.name).Nodup) (ht : t ∈ tasks) (c : String) :
    (succList tasks c).count t.name = t.dependencies.count c := by
  induction tasks with
  | nil => cases ht
  | cons u us ih =>
    simp only [List.map_cons, List.nodup_cons] at hnd
    rw [succList_cons, List.count_append]
    rcases List.mem_cons.mp ht with rfl | ht
    · rw [List.count_replicate_self]
      have hz : (succList us c).count t.name = 0 := by
        refine List.count_eq_zero.mpr ?_
        intro hmem
        exact hnd.1 (mem_succList hmem)
      omega
    · have hne : t.name ≠ u.name := by
        intro he
        exact hnd.1 (he ▸ List.mem_map_of_mem Task.name ht)
      rw [List.count_replicate, if_neg (by simpa using Ne.symm hne)]
      have := ih hnd.2 ht
      omega

/-! ### Behaviour of the successor-processing fold -/

/-- The (zero- or one-element) list of tasks a `task_map` lookup yields. -/
def optT : Option Task → List Task
  | some t => [t]
  | none => []

theorem processSuccessors_nil (tm : String → Option Task) (r : List Task)
    (m : String → Int) : processSuccessors tm [] r m = (r, m) := rfl

theorem processSuccessors_cons (tm : String → Option Task) (n : String)
    (ns : List String) (r : List Task) (m : String → Int) :
    processSuccessors tm (n :: ns) r m =
      processSuccessors tm ns (if m n - 1 = 0 then r ++ optT (tm n) else r)
        (updMap m n (m n - 1)) := by
  by_cases h : m n - 1 = 0
  · rw [if_pos h]
    cases htm : tm n with
    | some t => simp [processSuccessors, htm, h, optT]
    | none => simp [processSuccessors, htm, h, optT]
  · rw [if_neg h]
    simp [processSuccessors, h]

theorem ps_append (tm : String → Option Task) (L₁ L₂ : List String)
    (r : List Task) (m : String → Int) :
    processSuccessors tm (L₁ ++ L₂) r m =
      processSuccessors tm L₂ (processSuccessors tm L₁ r m).1
        (processSuccessors tm L₁ r m).2 := by
  simp only [processSuccessors, List.foldl_append]

theorem ps_deg (tm : String → Option Task) :
    ∀ (L : List String) (r : List Task) (m : String → Int) (n : String),
      (processSuccessors tm L r m).2 n = m n - (L.count n : Int) := by
  intro L
  induction L with
  | nil => intro r m n; rw [processSuccessors_nil]; simp
  | cons x xs ih =>
    intro r m n
    rw [processSuccessors_cons, ih]
    by_cases hx : n = x
    · subst hx
      rw [updMap_same, List.count_cons_self]
      push_cast
      ring
    · rw [updMap_other _ _ hx, List.count_cons_of_ne hx]

theorem ps_replicate_ready (tm : String → Option Task) :
    ∀ (k : Nat) (n : String) (r : List Task) (m : String → Int),
      (processSuccessors tm (List.replicate k n) r m).1 =
        r ++ (if 1 ≤ m n ∧ m n ≤ (k : Int) then optT (tm n) else []) := by
  intro k
  induction k with
  | zero =>
    intro n r m
    rw [List.replicate_zero, processSuccessors_nil]
    rw [if_neg (by push_cast; omega)]
    simp
  | succ k ih =>
    intro n r m
    rw [List.replicate_succ, processSuccessors_cons, ih, updMap_same]
    by_cases h : m n - 1 = 0
    · rw [if_pos h]
      rw [if_neg (by omega), if_pos (by push_cast; omega)]
      simp
    · rw [if_neg h]
      have hiff : (1 ≤ m n - 1 ∧ m n - 1 ≤ (k : Int)) ↔
          (1 ≤ m n ∧ m n ≤ ((k + 1 : Nat) : Int)) := by
        push_cast
        omega
      rw [if_congr hiff rfl rfl]

/-- The tasks appended to the ready queue while processing the successor
list of a popped task named `c`: those whose running in-degree hits zero. -/
def appendedSpec (tm : String → Option Task) (ts : List Task)
    (m : String → Int) (c : String) : List Task :=
  (ts.map fun t =>
    if 1 ≤ m t.name ∧ m t.name ≤ (t.dependencies.count c : Int) then optT (tm t.name)
    else []).flatten

theorem appendedSpec_nil (tm : String → Option Task) (m : String → Int)
    (c : String) : appendedSpec tm [] m c = [] := rfl

theorem appendedSpec_cons (tm : String → Option Task) (t : Task) (ts : List Task)
    (m : String → Int) (c : String) :
    appendedSpec tm (t :: ts) m c =
      (if 1 ≤ m t.name ∧ m t.name ≤ (t.dependencies.count c : Int) then optT (tm t.name)
       else []) ++ appendedSpec tm ts m c := rfl

theorem appendedSpec_congr (tm : String → Option Task) :
    ∀ (ts : List Task) (m₁ m₂ : String → Int) (c : String),
      (∀ t ∈ ts, m₁ t.name = m₂ t.name) →
      appendedSpec tm ts m₁ c = appendedSpec tm ts m₂ c := by
  intro ts
  induction ts with
  | nil => intro m₁ m₂ c _; rfl
  | cons t ts ih =>
    intro m₁ m₂ c h
    rw [appendedSpec_cons, appendedSpec_cons,
      ih m₁ m₂ c (fun u hu => h u (List.mem_cons_of_mem t hu)),
      h t (List.mem_cons_self t ts)]

theorem ps_succList_ready (tm : String → Option Task) :
    ∀ (ts : List Task), (ts.map Task.name).Nodup →
      ∀ (r : List Task) (m : String → Int) (c : String),
        (processSuccessors tm (succList ts c) r m).1 = r ++ appendedSpec tm ts m c := by
  intro ts
  induction ts with
  | nil =>
    intro _ r m c
    rw [succList_nil, processSuccessors_nil, appendedSpec_nil, List.append_nil]
  | cons t ts ih =>
    intro hnd r m c
    simp only [List.map_cons, List.nodup_cons] at hnd
    rw [succList_cons, ps_append, ps_replicate_ready, ih hnd.2]
    rw [appendedSpec_congr tm ts _ m c ?_]
    · rw [appendedSpec_cons, List.append_assoc]
    · intro u hu
      rw [ps_deg]
      have : (List.replicate (t.dependencies.count c) t.name).count u.name = 0 := by
        refine List.count_eq_zero.mpr ?_
        intro hmem
        rcases List.eq_of_mem_replicate hmem with he
        exact hnd.1 (he ▸ List.mem_map_of_mem Task.name hu)
      rw [this]
      simp

theorem appendedSpec_filter (tm : String → Option Task) :
    ∀ (ts : List Task) (m : String → Int) (c : String),
      (∀ t ∈ ts, tm t.name = some t) →
      appendedSpec tm ts m c =
        ts.filter fun t =>
          decide (1 ≤ m t.name ∧ m t.name ≤ (t.dependencies.count c : Int)) := by
  intro ts
  induction ts with
  | nil => intro m c _; rfl
  | cons t ts ih =>
    intro m c h
    rw [appendedSpec_cons, ih m c (fun u hu => h u (List.mem_cons_of_mem t hu)),
      h t (List.mem_cons_self t ts)]
    by_cases hc : 1 ≤ m t.name ∧ m t.name ≤ (t.dependencies.count c : Int)
    · rw [if_pos hc, List.filter_cons_of_pos (by simpa using hc)]
      rfl
    · rw [if_neg hc, List.filter_cons_of_neg (by simpa using hc)]
      rfl

/-! ### Contiguity of the schedule timeline -/

/-- `Contig a l b`: the entries of `l` occupy the timeline from `a` to `b`
back to back: each entry starts where the clock stood, finishes
`duration` later, and hands the clock to the next entry. -/
def Contig : Int → List SchedEntry → Int → Prop
  | a, [], b => a = b
  | a, e :: es, b => e.start = a ∧ e.finish = a + e.task.duration ∧ Contig e.finish es b

theorem contig_nil {a b : Int} : Contig a [] b ↔ a = b := Iff.rfl

theorem contig_cons {a b : Int} {e : SchedEntry} {es : List SchedEntry} :
    Contig a (e :: es) b ↔
      e.start = a ∧ e.finish = a + e.task.duration ∧ Contig e.finish es b := Iff.rfl

theorem contig_append :
    ∀ (l₁ : List SchedEntry) (a b c : Int) (l₂ : List SchedEntry),
      Contig a l₁ b → Contig b l₂ c → Contig a (l₁ ++ l₂) c := by
  intro l₁
  induction l₁ with
  | nil =>
    intro a b c l₂ h1 h2
    rw [contig_nil] at h1
    rw [List.nil_append, h1]
    exact h2
  | cons e es ih =>
    intro a b c l₂ h1 h2
    obtain ⟨hs, hf, hrest⟩ := h1
    exact ⟨hs, hf, ih _ _ _ _ hrest h2⟩

theorem contig_snoc {a b : Int} {l : List SchedEntry} (h : Contig a l b) (t : Task) :
    Contig a (l ++ [⟨t, b, b + t.duration⟩]) (b + t.duration) :=
  contig_append l a b _ _ h ⟨rfl, rfl, rfl⟩

theorem contig_sum :
    ∀ (l : List SchedEntry) (a b : Int), Contig a l b →
      b = a + (l.map fun e => e.task.duration).sum := by
  intro l
  induction l with
  | nil =>
    intro a b h
    rw [contig_nil] at h
    simp [h]
  | cons e es ih =>
    intro a b h
    obtain ⟨_, hf, hrest⟩ := h
    have := ih _ _ hrest
    rw [this, hf]
    simp
    ring

theorem contig_le :
    ∀ (l : List SchedEntry) (a b : Int), Contig a l b →
      (∀ e ∈ l, 0 ≤ e.task.duration) → a ≤ b := by
  intro l
  induction l with
  | nil =>
    intro a b h _
    rw [contig_nil] at h
    omega
  | cons e es ih =>
    intro a b h hdur
    obtain ⟨_, hf, hrest⟩ := h
    have h1 : e.finish ≤ b := ih _ _ hrest fun u hu => hdur u (List.mem_cons_of_mem e hu)
    have h2 : 0 ≤ e.task.duration := hdur e (List.mem_cons_self e es)
    omega

theorem contig_bounds :
    ∀ (l : List SchedEntry) (a b : Int), Contig a l b →
      (∀ e ∈ l, 0 ≤ e.task.duration) →
      ∀ e ∈ l, a ≤ e.start ∧ e.finish ≤ b := by
  intro l
  induction l with
  | nil => intro a b _ _ e he; cases he
  | cons f fs ih =>
    intro a b h hdur e he
    obtain ⟨hs, hf, hrest⟩ := h
    have hfle : f.finish ≤ b :=
      contig_le fs _ _ hrest fun u hu => hdur u (List.mem_cons_of_mem f hu)
    rcases List.mem_cons.mp he with rfl | he
    · exact ⟨le_of_eq hs.symm, hfle⟩
    · have := ih _ _ hrest (fun u hu => hdur u (List.mem_cons_of_mem f hu)) e he
      have hd : 0 ≤ f.task.duration := hdur f (List.mem_cons_self f fs)
      constructor
      · omega
      · exact this.2

theorem contig_split :
    ∀ (l₁ : List SchedEntry) (a b : Int) (e : SchedEntry) (l₂ : List SchedEntry),
      Contig a (l₁ ++ e :: l₂) b → Contig e.finish l₂ b := by
  intro l₁
  induction l₁ with
  | nil =>
    intro a b e l₂ h
    exact h.2.2
  | cons f fs ih =>
    intro a b e l₂ h
    exact ih _ _ _ _ h.2.2

theorem contig_chain :
    ∀ (l : List SchedEntry) (a b : Int), Contig a l b →
      List.Chain' (fun p q => q.start = p.finish) l := by
  intro l
  induction l with
  | nil => intro a b _; exact List.chain'_nil
  | cons e es ih =>
    intro a b h
    obtain ⟨_, _, hrest⟩ := h
    cases es with
    | nil => exact List.chain'_singleton e
    | cons f fs =>
      exact List.chain'_cons.mpr ⟨hrest.1, ih _ _ hrest⟩

/-! ### Dependencies appear strictly earlier in the schedule -/

/-- `DepsBeforeAux done l`: walking `l` from the front with `done` the
names already finished, every entry's dependencies are among the names
finished before it. -/
def DepsBeforeAux : List String → List SchedEntry → Prop
  | _, [] => True
  | done, e :: es =>
    (∀ d ∈ e.task.dependencies, d ∈ done) ∧ DepsBeforeAux (done ++ [e.task.name]) es

theorem schedNames_append (l₁ l₂ : List SchedEntry) :
    schedNames (l₁ ++ l₂) = schedNames l₁ ++ schedNames l₂ :=
  List.map_append _ _ _

theorem schedNames_snoc (l : List SchedEntry) (e : SchedEntry) :
    schedNames (l ++ [e]) = schedNames l ++ [e.task.name] :=
  schedNames_append l [e]

theorem depsBefore_snoc :
    ∀ (l : List SchedEntry) (done : List String) (e : SchedEntry),
      DepsBeforeAux done l →
      (∀ d ∈ e.task.dependencies, d ∈ done ++ schedNames l) →
      DepsBeforeAux done (l ++ [e]) := by
  intro l
  induction l with
  | nil =>
    intro done e _ hdep
    exact ⟨fun d hd => by simpa [schedNames] using hdep d hd, trivial⟩
  | cons f fs ih =>
    intro done e h hdep
    refine ⟨h.1, ih _ _ h.2 ?_⟩
    intro d hd
    have := hdep d hd
    simp only [schedNames, List.map_cons, List.mem_append, List.mem_cons] at this ⊢
    tauto

theorem depsBefore_mem :
    ∀ (l : List SchedEntry) (done : List String) (e : SchedEntry),
      DepsBeforeAux done l → e ∈ l →
      ∀ d ∈ e.task.dependencies, d ∈ done ++ schedNames l := by
  intro l
  induction l with
  | nil => intro done e _ he; cases he
  | cons f fs ih =>
    intro done e h he d hd
    rcases List.mem_cons.mp he with rfl | he
    · exact List.mem_append.mpr (Or.inl (h.1 d hd))
    · have := ih _ _ h.2 he d hd
      simp only [schedNames, List.map_cons, List.mem_append, List.mem_cons] at this ⊢
      tauto

theorem depsBefore_locate :
    ∀ (l : List SchedEntry) (done : List String) (et : SchedEntry) (d : String),
      DepsBeforeAux done l → et ∈ l → d ∈ et.task.dependencies →
      d ∈ done ∨ ∃ l₁ ed l₂, l = l₁ ++ ed :: l₂ ∧ ed.task.name = d ∧ et ∈ l₂ := by
  intro l
  induction l with
  | nil => intro done et d _ het; cases het
  | cons f fs ih =>
    intro done et d h het hd
    rcases List.mem_cons.mp het with rfl | het
    · exact Or.inl (h.1 d hd)
    · rcases ih _ et d h.2 het hd with hdone | ⟨l₁, ed, l₂, heq, hname, hmem⟩
      · rcases List.mem_append.mp hdone with hdone | hdone
        · exact Or.inl hdone
        · rcases List.mem_singleton.mp hdone with rfl
          exact Or.inr ⟨[], f, fs, rfl, rfl, het⟩
      · exact Or.inr ⟨f :: l₁, ed, l₂, by rw [heq]; rfl, hname, hmem⟩

/-! ### Equations and generic preservation for the main loop -/

theorem schedLoop_zero (tm : String → Option Task) (succs : String → List String)
    (st : SState) : schedLoop tm succs 0 st = st := rfl

theorem schedLoop_succ (tm : String → Option Task) (succs : String → List String)
    (f : Nat) (st : SState) :
    schedLoop tm succs (f + 1) st =
      match st.ready with
      | [] => st
      | cur :: rest => schedLoop tm succs f (schedStep tm succs cur rest st) := rfl

theorem schedLoop_nil (tm : String → Option Task) (succs : String → List String) :
    ∀ (f : Nat) (st : SState), st.ready = [] → schedLoop tm succs f st = st := by
  intro f st h
  cases f with
  | zero => rfl
  | succ f => rw [schedLoop_succ, h]

theorem schedLoop_cons (tm : String → Option Task) (succs : String → List String)
    (f : Nat) (st : SState) (cur : Task) (rest : List Task)
    (h : st.ready = cur :: rest) :
    schedLoop tm succs (f + 1) st =
      schedLoop tm succs f (schedStep tm succs cur rest st) := by
  rw [schedLoop_succ, h]

theorem schedLoop_add (tm : String → Option Task) (succs : String → List String) :
    ∀ (a b : Nat) (st : SState),
      schedLoop tm succs (a + b) st = schedLoop tm succs b (schedLoop tm succs a st) := by
  intro a
  induction a with
  | zero => intro b st; rw [Nat.zero_add, schedLoop_zero]
  | succ a ih =>
    intro b st
    cases hr : st.ready with
    | nil =>
      rw [schedLoop_nil tm succs _ st hr, schedLoop_nil tm succs _ st hr]
      exact (schedLoop_nil tm succs b st hr).symm
    | cons cur rest =>
      have h1 : a + 1 + b = (a + b) + 1 := by omega
      rw [h1, schedLoop_cons tm succs _ st cur rest hr,
        schedLoop_cons tm succs _ st cur rest hr, ih]

/-- Generic preservation: a property stable under one loop iteration is
stable under the whole loop. -/
theorem schedLoop_preserve (tm : String → Option Task) (succs : String → List String)
    (P : SState → Prop)
    (hstep : ∀ cur rest st, st.ready = cur :: rest → P st →
      P (schedStep tm succs cur rest st)) :
    ∀ (f : Nat) (st : SState), P st → P (schedLoop tm succs f st) := by
  intro f
  induction f with
  | zero => intro st h; exact h
  | succ f ih =>
    intro st h
    cases hr : st.ready with
    | nil => rw [schedLoop_nil tm succs _ st hr]; exact h
    | cons cur rest =>
      rw [schedLoop_cons tm succs _ st cur rest hr]
      exact ih _ (hstep cur rest st hr h)

theorem schedStep_ready (tm : String → Option Task) (succs : String → List String)
    (cur : Task) (rest : List Task) (st : SState) :
    (schedStep tm succs cur rest st).ready =
      sortByDeadline (processSuccessors tm (succs cur.name) rest st.in_degree).1 := rfl

theorem schedStep_deg (tm : String → Option Task) (succs : String → List String)
    (cur : Task) (rest : List Task) (st : SState) :
    (schedStep tm succs cur rest st).in_degree =
      (processSuccessors tm (succs cur.name) rest st.in_degree).2 := rfl

theorem schedStep_time (tm : String → Option Task) (succs : String → List String)
    (cur : Task) (rest : List Task) (st : SState) :
    (schedStep tm succs cur rest st).time = st.time + cur.duration := rfl

theorem schedStep_sched (tm : String → Option Task) (succs : String → List String)
    (cur : Task) (rest : List Task) (st : SState) :
    (schedStep tm succs cur rest st).sched =
      st.sched ++ [⟨cur, st.time, st.time + cur.duration⟩] := rfl

/-! ### Light invariants (no well-formedness hypotheses needed) -/

theorem schedLoop_contig (tm : String → Option Task) (succs : String → List String)
    (f : Nat) (st : SState) (h : Contig 0 st.sched st.time) :
    Contig 0 (schedLoop tm succs f st).sched (schedLoop tm succs f st).time := by
  refine schedLoop_preserve tm succs (fun s => Contig 0 s.sched s.time) ?_ f st h
  intro cur rest s _ hP
  rw [schedStep_sched, schedStep_time]
  exact contig_snoc hP cur

theorem ps_ready_extend (tm : String → Option Task) :
    ∀ (L : List String) (r : List Task) (m : String → Int),
      ∃ app, (processSuccessors tm L r m).1 = r ++ app := by
  intro L
  induction L with
  | nil => intro r m; exact ⟨[], by rw [processSuccessors_nil]; simp⟩
  | cons x xs ih =>
    intro r m
    rw [processSuccessors_cons]
    by_cases h : m x - 1 = 0
    · rw [if_pos h]
      rcases ih (r ++ optT (tm x)) (updMap m x (m x - 1)) with ⟨app, happ⟩
      exact ⟨optT (tm x) ++ app, by rw [happ, List.append_assoc]⟩
    · rw [if_neg h]
      exact ih r _

theorem ps_ready_mem (tm : String → Option Task) :
    ∀ (L : List String) (r : List Task) (m : String → Int) (t : Task),
      t ∈ (processSuccessors tm L r m).1 → t ∈ r ∨ ∃ n, tm n = some t := by
  intro L
  induction L with
  | nil =>
    intro r m t h
    rw [processSuccessors_nil] at h
    exact Or.inl h
  | cons x xs ih =>
    intro r m t h
    rw [processSuccessors_cons] at h
    by_cases hx : m x - 1 = 0
    · rw [if_pos hx] at h
      rcases ih _ _ t h with hr | hex
      · rcases List.mem_append.mp hr with hr | hr
        · exact Or.inl hr
        · cases htm : tm x with
          | some u =>
            rw [htm] at hr
            rcases List.mem_singleton.mp hr with rfl
            exact Or.inr ⟨x, htm⟩
          | none => rw [htm] at hr; cases hr
      · exact Or.inr hex
    · rw [if_neg hx] at h
      exact ih _ _ t h

theorem schedLoop_mem_tasks (tasks : List Task) (succs : String → List String)
    (f : Nat) (st : SState)
    (h : (∀ t ∈ st.ready, t ∈ tasks) ∧ (∀ e ∈ st.sched, e.task ∈ tasks)) :
    (∀ t ∈ (schedLoop (buildTaskMap tasks) succs f st).ready, t ∈ tasks) ∧
      (∀ e ∈ (schedLoop (buildTaskMap tasks) succs f st).sched, e.task ∈ tasks) := by
  refine schedLoop_preserve _ succs
    (fun s => (∀ t ∈ s.ready, t ∈ tasks) ∧ (∀ e ∈ s.sched, e.task ∈ tasks)) ?_ f st h
  intro cur rest s hr hP
  constructor
  · intro t ht
    rw [schedStep_ready] at ht
    have ht2 := mem_sortByDeadline.mp ht
    rcases ps_ready_mem _ _ _ _ t ht2 with hmem | ⟨n, hn⟩
    · exact hP.1 t (hr ▸ List.mem_cons_of_mem cur hmem)
    · exact buildTaskMap_mem hn
  · intro e he
    rw [schedStep_sched] at he
    rcases List.mem_append.mp he with he | he
    · exact hP.2 e he
    · rcases List.mem_singleton.mp he with rfl
      exact hP.1 cur (hr ▸ List.mem_cons_self cur rest)

theorem schedLoop_sched_extend (tm : String → Option Task) (succs : String → List String) :
    ∀ (f : Nat) (st : SState),
      ∃ tail, (schedLoop tm succs f st).sched = st.sched ++ tail := by
  intro f
  induction f with
  | zero => intro st; exact ⟨[], by simp [schedLoop_zero]⟩
  | succ f ih =>
    intro st
    cases hr : st.ready with
    | nil => rw [schedLoop_nil tm succs _ st hr]; exact ⟨[], by simp⟩
    | cons cur rest =>
      rw [schedLoop_cons tm succs _ st cur rest hr]
      rcases ih (schedStep tm succs cur rest st) with ⟨tail, htail⟩
      rw [htail, schedStep_sched]
      exact ⟨⟨cur, st.time, st.time + cur.duration⟩ :: tail, by simp⟩

theorem schedLoop_sched_len (tm : String → Option Task) (succs : String → List String) :
    ∀ (f : Nat) (st : SState),
      (schedLoop tm succs f st).sched.length ≤ st.sched.length + f := by
  intro f
  induction f with
  | zero => intro st; rw [schedLoop_zero]; omega
  | succ f ih =>
    intro st
    cases hr : st.ready with
    | nil => rw [schedLoop_nil tm succs _ st hr]; omega
    | cons cur rest =>
      rw [schedLoop_cons tm succs _ st cur rest hr]
      have := ih (schedStep tm succs cur rest st)
      rw [schedStep_sched] at this
      simp only [List.length_append, List.length_singleton] at this
      omega

/-- A task present in the ready queue is eventually scheduled, provided the
loop runs until the queue is empty. -/
theorem schedLoop_persist (tm : String → Option Task) (succs : String → List String) :
    ∀ (f : Nat) (st : SState) (n : String),
      (n ∈ st.ready.map Task.name ∨ n ∈ schedNames st.sched) →
      (n ∈ (schedLoop tm succs f st).ready.map Task.name ∨
        n ∈ schedNames (schedLoop tm succs f st).sched) := by
  intro f st n h
  refine schedLoop_preserve tm succs
    (fun s => n ∈ s.ready.map Task.name ∨ n ∈ schedNames s.sched) ?_ f st h
  intro cur rest s hr hP
  rcases hP with hready | hsched
  · rw [hr] at hready
    simp only [List.map_cons, List.mem_cons] at hready
    rcases hready with rfl | hready
    · right
      rw [schedStep_sched, schedNames_snoc]
      simp
    · left
      rw [schedStep_ready]
      rcases ps_ready_extend tm (succs cur.name) rest s.in_degree with ⟨app, happ⟩
      rw [happ]
      rcases List.mem_map.mp hready with ⟨t, ht, rfl⟩
      exact List.mem_map_of_mem Task.name
        (mem_sortByDeadline.mpr (List.mem_append.mpr (Or.inl ht)))
  · right
    rw [schedStep_sched, schedNames_snoc]
    exact List.mem_append.mpr (Or.inl hsched)

/-! ### The tardiness fold -/

theorem tard_foldl :
    ∀ (l : List SchedEntry) (acc : Int),
      l.foldl
        (fun acc e =>
          if e.task.deadline < e.finish then acc + (e.finish - e.task.deadline) else acc)
        acc = acc + (l.map fun e => max 0 (e.finish - e.task.deadline)).sum := by
  intro l
  induction l with
  | nil => intro acc; simp
  | cons e es ih =>
    intro acc
    simp only [List.foldl_cons, List.map_cons, List.sum_cons]
    by_cases h : e.task.deadline < e.finish
    · rw [if_pos h, ih]
      have : max 0 (e.finish - e.task.deadline) = e.finish - e.task.deadline := by omega
      rw [this]
      ring
    · rw [if_neg h, ih]
      have : max 0 (e.finish - e.task.deadline) = 0 := by omega
      rw [this]
      ring

/-! ### Termination: the queue empties within `tasks.length` iterations -/

/-- Number of distinct names whose in-degree is still positive. -/
def posCount (names : List String) (m : String → Int) : Nat :=
  (names.dedup.filter fun n => decide (0 < m n)).length

/-- The loop potential: queue length plus the number of names that still
wait for predecessors.  Each iteration strictly decreases it. -/
def phi (tasks : List Task) (st : SState) : Nat :=
  st.ready.length + posCount (tasks.map Task.name) st.in_degree

theorem filter_length_update_false :
    ∀ (ns : List String), ns.Nodup → ∀ (n : String) (p q : String → Bool),
      n ∈ ns → p n = true → q n = false → (∀ x, x ≠ n → q x = p x) →
      (ns.filter q).length + 1 = (ns.filter p).length := by
  intro ns
  induction ns with
  | nil => intro _ n p q h; cases h
  | cons a as ih =>
    intro hnd n p q hmem hp hq hother
    rw [List.nodup_cons] at hnd
    rcases List.mem_cons.mp hmem with rfl | hmem
    · rw [List.filter_cons_of_pos hp, List.filter_cons_of_neg (by simp [hq])]
      have : as.filter q = as.filter p := by
        refine List.filter_congr ?_
        intro x hx
        exact hother x fun he => hnd.1 (he ▸ hx)
      rw [this, List.length_cons]
    · have hne : a ≠ n := fun he => hnd.1 (he ▸ hmem)
      have hqa : q a = p a := hother a hne
      by_cases hpa : p a = true
      · rw [List.filter_cons_of_pos hpa, List.filter_cons_of_pos (by rw [hqa]; exact hpa)]
        rw [List.length_cons, List.length_cons]
        have := ih hnd.2 n p q hmem hp hq hother
        omega
      · rw [List.filter_cons_of_neg hpa, List.filter_cons_of_neg (by rw [hqa]; exact hpa)]
        exact ih hnd.2 n p q hmem hp hq hother

theorem ps_phi (tm : String → Option Task) (names : List String) :
    ∀ (L : List String) (r : List Task) (m : String → Int),
      (∀ n ∈ L, n ∈ names) →
      (processSuccessors tm L r m).1.length +
          posCount names (processSuccessors tm L r m).2 ≤
        r.length + posCount names m := by
  intro L
  induction L with
  | nil => intro r m _; rw [processSuccessors_nil]
  | cons x xs ih =>
    intro r m hL
    rw [processSuccessors_cons]
    have hxs : ∀ n ∈ xs, n ∈ names := fun n hn => hL n (List.mem_cons_of_mem x hn)
    by_cases h : m x - 1 = 0
    · rw [if_pos h]
      have step := ih (r ++ optT (tm x)) (updMap m x (m x - 1)) hxs
      have hdrop : posCount names (updMap m x (m x - 1)) + 1 = posCount names m := by
        refine filter_length_update_false names.dedup (List.nodup_dedup names) x _ _
          (List.mem_dedup.mpr (hL x (List.mem_cons_self x xs))) ?_ ?_ ?_
        · exact decide_eq_true (by omega)
        · rw [updMap_same]
          exact decide_eq_false (by omega)
        · intro y hy
          rw [updMap_other _ _ hy]
      have hlen : (r ++ optT (tm x)).length ≤ r.length + 1 := by
        cases tm x <;> simp [optT]
      omega
    · rw [if_neg h]
      have step := ih r (updMap m x (m x - 1)) hxs
      have heq : posCount names (updMap m x (m x - 1)) = posCount names m := by
        refine congrArg List.length (List.filter_congr ?_)
        intro y hy
        by_cases hxy : y = x
        · subst hxy
          rw [updMap_same]
          exact decide_eq_decide.mpr (by omega)
        · rw [updMap_other _ _ hxy]
      omega

theorem phi_step (tasks : List Task) (cur : Task) (rest : List Task) (st : SState)
    (hr : st.ready = cur :: rest) :
    phi tasks (schedStep (buildTaskMap tasks) (buildSucc tasks) cur rest st) + 1 ≤
      phi tasks st := by
  have hsucc : ∀ n ∈ buildSucc tasks cur.name, n ∈ tasks.map Task.name := by
    intro n hn
    rw [buildSucc_eq] at hn
    exact mem_succList hn
  have hps := ps_phi (buildTaskMap tasks) (tasks.map Task.name)
    (buildSucc tasks cur.name) rest st.in_degree hsucc
  unfold phi
  rw [schedStep_ready, schedStep_deg, length_sortByDeadline, hr, List.length_cons]
  omega

theorem schedLoop_empties (tasks : List Task) :
    ∀ (f : Nat) (st : SState), phi tasks st ≤ f →
      (schedLoop (buildTaskMap tasks) (buildSucc tasks) f st).ready = [] := by
  intro f
  induction f with
  | zero =>
    intro st h
    rw [schedLoop_zero]
    have : st.ready.length = 0 := by
      unfold phi at h
      omega
    exact List.length_eq_zero.mp this
  | succ f ih =>
    intro st h
    cases hr : st.ready with
    | nil => rw [schedLoop_nil _ _ _ st hr]; exact hr
    | cons cur rest =>
      rw [schedLoop_cons _ _ _ st cur rest hr]
      refine ih _ ?_
      have := phi_step tasks cur rest st hr
      omega

theorem length_filter_split (p : Task → Bool) :
    ∀ (l : List Task),
      (l.filter p).length + (l.filter fun t => !(p t)).length = l.length := by
  intro l
  induction l with
  | nil => rfl
  | cons t ts ih =>
    by_cases h : p t = true
    · rw [List.filter_cons_of_pos h, List.filter_cons_of_neg (by simp [h])]
      simp only [List.length_cons]
      omega
    · rw [List.filter_cons_of_neg h, List.filter_cons_of_pos (by simp at h; simp [h])]
      simp only [List.length_cons]
      omega

theorem phi_init (tasks : List Task) : phi tasks (initState tasks) ≤ tasks.length := by
  unfold phi initState posCount
  simp only [length_sortByDeadline]
  set p : Task → Bool := fun t => decide (buildInDeg tasks t.name = 0) with hp
  have hsub :
      ((tasks.map Task.name).dedup.filter fun n => decide (0 < buildInDeg tasks n)).length ≤
        (tasks.filter fun t => !(p t)).length := by
    have hnd : ((tasks.map Task.name).dedup.filter
        fun n => decide (0 < buildInDeg tasks n)).Nodup :=
      (List.nodup_dedup _).filter _
    have hsubset :
        ((tasks.map Task.name).dedup.filter fun n => decide (0 < buildInDeg tasks n)) ⊆
          (tasks.filter fun t => !(p t)).map Task.name := by
      intro n hn
      rcases List.mem_filter.mp hn with ⟨hmem, hpos⟩
      have hpos2 : 0 < buildInDeg tasks n := of_decide_eq_true hpos
      rcases List.mem_map.mp (List.mem_dedup.mp hmem) with ⟨t, ht, rfl⟩
      refine List.mem_map_of_mem Task.name (List.mem_filter.mpr ⟨ht, ?_⟩)
      rw [hp]
      simp only [Bool.not_eq_true']
      exact decide_eq_false (by omega)
    have := (List.Nodup.subperm hnd hsubset).length_le
    simpa using this
  have hsplit := length_filter_split p tasks
  omega

/-- The scheduling loop always terminates with an empty ready queue within
`tasks.length` iterations: every task object enters the queue at most once. -/
theorem finalState_ready_nil (tasks : List Task) : (finalState tasks).ready = [] :=
  schedLoop_empties tasks tasks.length (initState tasks) (phi_init tasks)

/-! ### The in-degree bookkeeping invariant -/

/-- Number of dependency occurrences of `t` whose name is not yet among the
scheduled names `S`. -/
def unschedCount (S : List String) (t : Task) : Nat :=
  t.dependencies.countP fun d => decide (d ∉ S)

theorem unschedCount_nil (t : Task) : unschedCount [] t = t.dependencies.length := by
  unfold unschedCount
  refine List.countP_eq_length.mpr ?_
  intro d _
  simp

theorem countP_snoc_split {S : List String} {c : String} (h : c ∉ S) :
    ∀ (l : List String),
      l.countP (fun d => decide (d ∉ S)) =
        l.countP (fun d => decide (d ∉ S ++ [c])) + l.count c := by
  intro l
  induction l with
  | nil => rfl
  | cons d ds ih =>
    by_cases hdc : d = c
    · subst hdc
      rw [List.countP_cons_of_pos (fun x => decide (x ∉ S)) ds (by exact decide_eq_true h),
        List.countP_cons_of_neg (fun x => decide (x ∉ S ++ [d])) ds (by simp),
        List.count_cons_self, ih]
      omega
    · rw [List.count_cons_of_ne (fun he => hdc he.symm)]
      by_cases hdS : d ∈ S
      · rw [List.countP_cons_of_neg (fun x => decide (x ∉ S)) ds (by simp [hdS]),
          List.countP_cons_of_neg (fun x => decide (x ∉ S ++ [c])) ds (by simp [hdS]), ih]
      · have hp2 : d ∉ S ++ [c] := by
          simp only [List.mem_append, List.mem_singleton]
          tauto
        rw [List.countP_cons_of_pos (fun x => decide (x ∉ S)) ds (by exact decide_eq_true hdS),
          List.countP_cons_of_pos (fun x => decide (x ∉ S ++ [c])) ds
            (by exact decide_eq_true hp2),
          ih]
        omega

theorem unschedCount_snoc {S : List String} {c : String} (h : c ∉ S) (t : Task) :
    unschedCount S t = unschedCount (S ++ [c]) t + t.dependencies.count c :=
  countP_snoc_split h t.dependencies

theorem count_le_unschedCount {S : List String} {c : String} (h : c ∉ S) (t : Task) :
    t.dependencies.count c ≤ unschedCount S t := by
  rw [unschedCount_snoc h]
  omega

theorem unschedCount_eq_zero {S : List String} {t : Task} :
    unschedCount S t = 0 ↔ ∀ d ∈ t.dependencies, d ∈ S := by
  unfold unschedCount
  rw [List.countP_eq_zero]
  constructor
  · intro h d hd
    have := h d hd
    simpa using this
  · intro h d hd
    simpa using h d hd

/-- Two distinct tasks of a duplicate-free task list have distinct names. -/
theorem name_inj {tasks : List Task} (hnd : (tasks.map Task.name).Nodup)
    {a b : Task} (ha : a ∈ tasks) (hb : b ∈ tasks) (h : a.name = b.name) : a = b :=
  List.inj_on_of_nodup_map hnd ha hb h

/-- The loop invariant, for a duplicate-free task list: the ready queue and
the schedule only hold input tasks, no name occurs twice across schedule
and queue, every in-degree counts the not-yet-finished dependency
occurrences, queued tasks have all dependencies finished, tasks whose
in-degree hit zero are queued or finished, and every scheduled entry's
dependencies were finished strictly before it. -/
structure Inv (tasks : List Task) (st : SState) : Prop where
  ready_sub : ∀ t ∈ st.ready, t ∈ tasks
  sched_sub : ∀ e ∈ st.sched, e.task ∈ tasks
  nodup_all : (schedNames st.sched ++ st.ready.map Task.name).Nodup
  deg : ∀ t ∈ tasks, st.in_degree t.name = (unschedCount (schedNames st.sched) t : Int)
  ready_deps : ∀ t ∈ st.ready, ∀ d ∈ t.dependencies, d ∈ schedNames st.sched
  zero_done : ∀ t ∈ tasks, st.in_degree t.name = 0 →
    t.name ∈ schedNames st.sched ∨ t ∈ st.ready
  deps_before : DepsBeforeAux [] st.sched

theorem inv_init (tasks : List Task) (hnd : (tasks.map Task.name).Nodup) :
    Inv tasks (initState tasks) := by
  have hmem0 : ∀ t, t ∈ (initState tasks).ready ↔
      t ∈ tasks.filter (fun t => decide (buildInDeg tasks t.name = 0)) := by
    intro t
    exact mem_sortByDeadline
  refine ⟨?_, ?_, ?_, ?_, ?_, ?_, trivial⟩
  · intro t ht
    exact List.mem_of_mem_filter ((hmem0 t).mp ht)
  · intro e he
    cases he
  · show ((schedNames []) ++ _).Nodup
    simp only [schedNames, List.map_nil, List.nil_append]
    have hperm : List.Perm ((initState tasks).ready.map Task.name)
        ((tasks.filter fun t => decide (buildInDeg tasks t.name = 0)).map Task.name) :=
      (sortByDeadline_perm _).map Task.name
    refine hperm.nodup_iff.mpr ?_
    exact ((List.filter_sublist tasks).map Task.name).nodup hnd
  · intro t ht
    show buildInDeg tasks t.name = _
    rw [buildInDeg_eq hnd ht]
    have hs : (initState tasks).sched = [] := rfl
    rw [hs]
    simp only [schedNames, List.map_nil, unschedCount_nil]
  · intro t ht d hd
    have hf := (hmem0 t).mp ht
    rcases List.mem_filter.mp hf with ⟨hmem, hdeg⟩
    have hdeg2 : buildInDeg tasks t.name = 0 := of_decide_eq_true hdeg
    rw [buildInDeg_eq hnd hmem] at hdeg2
    have : t.dependencies.length = 0 := by exact_mod_cast hdeg2
    rw [List.length_eq_zero.mp this] at hd
    cases hd
  · intro t ht hdeg
    right
    refine (hmem0 t).mpr (List.mem_filter.mpr ⟨ht, ?_⟩)
    exact decide_eq_true hdeg

theorem inv_step (tasks : List Task) (hnd : (tasks.map Task.name).Nodup)
    (cur : Task) (rest : List Task) (st : SState)
    (hr : st.ready = cur :: rest) (hinv : Inv tasks st) :
    Inv tasks (schedStep (buildTaskMap tasks) (buildSucc tasks) cur rest st) := by
  set S := schedNames st.sched with hS
  have hcur : cur ∈ tasks := hinv.ready_sub cur (by rw [hr]; exact List.mem_cons_self _ _)
  have hrest_sub : ∀ t ∈ rest, t ∈ tasks := fun t ht =>
    hinv.ready_sub t (by rw [hr]; exact List.mem_cons_of_mem cur ht)
  have hnall := hinv.nodup_all
  rw [hr, List.map_cons] at hnall
  rcases List.nodup_append.mp hnall with ⟨hndS, hndR, hdisj⟩
  have hcS : cur.name ∉ S := fun hmem => hdisj hmem (List.mem_cons_self _ _)
  -- the ready queue after the iteration
  set app := tasks.filter
    (fun t => decide (1 ≤ st.in_degree t.name ∧
      st.in_degree t.name ≤ (t.dependencies.count cur.name : Int))) with happdef
  have htm : ∀ t ∈ tasks, buildTaskMap tasks t.name = some t :=
    fun t ht => buildTaskMap_eq hnd ht
  have hready1 :
      (processSuccessors (buildTaskMap tasks) (buildSucc tasks cur.name)
        rest st.in_degree).1 = rest ++ app := by
    rw [buildSucc_eq, ps_succList_ready _ tasks hnd, appendedSpec_filter _ tasks _ _ htm]
  have hdeg2 : ∀ n,
      (processSuccessors (buildTaskMap tasks) (buildSucc tasks cur.name)
        rest st.in_degree).2 n =
        st.in_degree n - ((succList tasks cur.name).count n : Int) := by
    intro n
    rw [buildSucc_eq]
    exact ps_deg _ _ _ _ n
  have hS' : schedNames (schedStep (buildTaskMap tasks) (buildSucc tasks)
      cur rest st).sched = S ++ [cur.name] := by
    rw [schedStep_sched, schedNames_snoc]
  -- membership characterisation of the appended tasks
  have happ_mem : ∀ t ∈ app, t ∈ tasks ∧ 1 ≤ st.in_degree t.name ∧
      st.in_degree t.name ≤ (t.dependencies.count cur.name : Int) := by
    intro t ht
    rcases List.mem_filter.mp ht with ⟨h1, h2⟩
    exact ⟨h1, of_decide_eq_true h2⟩
  have happ_char : ∀ t ∈ app,
      unschedCount S t = t.dependencies.count cur.name ∧ 1 ≤ unschedCount S t := by
    intro t ht
    rcases happ_mem t ht with ⟨htk, h1, h2⟩
    have hd := hinv.deg t htk
    rw [← hS] at hd
    have hle := count_le_unschedCount hcS t
    rw [hd] at h1 h2
    omega
  have happ_dep : ∀ t ∈ app, ∀ d ∈ t.dependencies, d ∈ S ++ [cur.name] := by
    intro t ht
    have hchar := happ_char t ht
    have hsnoc := unschedCount_snoc hcS t
    have hzero : unschedCount (S ++ [cur.name]) t = 0 := by omega
    exact unschedCount_eq_zero.mp hzero
  have happ_notready : ∀ t ∈ app, t ∉ st.ready := by
    intro t ht hready
    have h0 : unschedCount S t = 0 := unschedCount_eq_zero.mpr (hinv.ready_deps t hready)
    have := (happ_char t ht).2
    omega
  have hsched_dep : ∀ e ∈ st.sched, ∀ d ∈ e.task.dependencies, d ∈ S := by
    intro e he d hd
    have := depsBefore_mem st.sched [] e hinv.deps_before he d hd
    simpa using this
  have happ_nameS : ∀ t ∈ app, t.name ∉ S := by
    intro t ht hmem
    rcases List.mem_map.mp hmem with ⟨e, he, hname⟩
    have he2 : e.task ∈ tasks := hinv.sched_sub e he
    have heq : e.task = t := name_inj hnd he2 (happ_mem t ht).1 hname
    have h0 : unschedCount S t = 0 :=
      unschedCount_eq_zero.mpr (fun d hd => hsched_dep e he d (heq ▸ hd))
    have := (happ_char t ht).2
    omega
  have happ_ne : ∀ t ∈ app, t ≠ cur ∧ t ∉ rest := by
    intro t ht
    have hnr := happ_notready t ht
    rw [hr] at hnr
    exact ⟨fun he => hnr (he ▸ List.mem_cons_self _ _),
      fun hmem => hnr (List.mem_cons_of_mem _ hmem)⟩
  have happ_sub : ∀ t ∈ app, t ∈ tasks := fun t ht => (happ_mem t ht).1
  refine ⟨?_, ?_, ?_, ?_, ?_, ?_, ?_⟩
  · -- ready_sub
    intro t ht
    rw [schedStep_ready, hready1] at ht
    rcases List.mem_append.mp (mem_sortByDeadline.mp ht) with ht | ht
    · exact hrest_sub t ht
    · exact happ_sub t ht
  · -- sched_sub
    intro e he
    rw [schedStep_sched] at he
    rcases List.mem_append.mp he with he | he
    · exact hinv.sched_sub e he
    · rcases List.mem_singleton.mp he with rfl
      exact hcur
  · -- nodup_all
    rw [hS', schedStep_ready, hready1]
    have hperm : List.Perm
        ((sortByDeadline (rest ++ app)).map Task.name)
        (rest.map Task.name ++ app.map Task.name) := by
      have := (sortByDeadline_perm (rest ++ app)).map Task.name
      rwa [List.map_append] at this
    refine (List.Perm.append_left (S ++ [cur.name]) hperm.symm).nodup ?_
    have hn1 : ((S ++ [cur.name]) ++ rest.map Task.name).Nodup := by
      rw [List.append_assoc, List.singleton_append]
      exact hnall
    have hn2 : (app.map Task.name).Nodup :=
      ((List.filter_sublist tasks).map Task.name).nodup hnd
    rw [← List.append_assoc]
    refine List.nodup_append.mpr ⟨hn1, hn2, ?_⟩
    intro x hx hxapp
    rcases List.mem_map.mp hxapp with ⟨t, htapp, rfl⟩
    rcases List.mem_append.mp hx with hx | hx
    · rcases List.mem_append.mp hx with hx | hx
      · exact happ_nameS t htapp hx
      · rcases List.mem_singleton.mp hx with hx
        exact (happ_ne t htapp).1 (name_inj hnd (happ_sub t htapp) hcur hx)
    · rcases List.mem_map.mp hx with ⟨u, hu, hname⟩
      have : u = t := name_inj hnd (hrest_sub u hu) (happ_sub t htapp) hname
      exact (happ_ne t htapp).2 (this ▸ hu)
  · -- deg
    intro t ht
    rw [schedStep_deg, hdeg2, hS', count_succList hnd ht]
    have hd := hinv.deg t ht
    rw [← hS] at hd
    have hsnoc := unschedCount_snoc hcS t
    omega
  · -- ready_deps
    intro t ht d hd
    rw [schedStep_ready, hready1] at ht
    rw [hS']
    rcases List.mem_append.mp (mem_sortByDeadline.mp ht) with ht | ht
    · exact List.mem_append.mpr (Or.inl
        (hinv.ready_deps t (by rw [hr]; exact List.mem_cons_of_mem cur ht) d hd))
    · exact happ_dep t ht d hd
  · -- zero_done
    intro t ht hz
    rw [schedStep_deg, hdeg2, count_succList hnd ht] at hz
    rw [hS', schedStep_ready, hready1]
    have hd := hinv.deg t ht
    by_cases hk0 : t.dependencies.count cur.name = 0
    · have hz0 : st.in_degree t.name = 0 := by omega
      rcases hinv.zero_done t ht hz0 with hmem | hmem
      · exact Or.inl (List.mem_append.mpr (Or.inl hmem))
      · rw [hr] at hmem
        rcases List.mem_cons.mp hmem with rfl | hmem
        · exact Or.inl (List.mem_append.mpr (Or.inr (List.mem_singleton.mpr rfl)))
        · exact Or.inr (mem_sortByDeadline.mpr (List.mem_append.mpr (Or.inl hmem)))
    · right
      refine mem_sortByDeadline.mpr (List.mem_append.mpr (Or.inr ?_))
      refine List.mem_filter.mpr ⟨ht, decide_eq_true ?_⟩
      omega
  · -- deps_before
    rw [schedStep_sched]
    refine depsBefore_snoc st.sched [] _ hinv.deps_before ?_
    intro d hd
    have := hinv.ready_deps cur (by rw [hr]; exact List.mem_cons_self _ _) d hd
    simpa using this

theorem inv_loop (tasks : List Task) (hnd : (tasks.map Task.name).Nodup)
    (f : Nat) (st : SState) (h : Inv tasks st) :
    Inv tasks (schedLoop (buildTaskMap tasks) (buildSucc tasks) f st) :=
  schedLoop_preserve _ _ (Inv tasks)
    (fun cur rest st hr hP => inv_step tasks hnd cur rest st hr hP) f st h

theorem inv_final (tasks : List Task) (hnd : (tasks.map Task.name).Nodup) :
    Inv tasks (finalState tasks) :=
  inv_loop tasks hnd tasks.length (initState tasks) (inv_init tasks hnd)

/-! ### Completeness and ordering on valid acyclic inputs -/

theorem final_contig (tasks : List Task) :
    Contig 0 (finalState tasks).sched (finalState tasks).time :=
  schedLoop_contig _ _ _ _ rfl

theorem all_scheduled (tasks : List Task) (hnd : (tasks.map Task.name).Nodup)
    (hdeps : ∀ t ∈ tasks, ∀ d ∈ t.dependencies, d ∈ tasks.map Task.name)
    (r : String → Nat)
    (hrk : ∀ t ∈ tasks, ∀ d ∈ t.dependencies, r d < r t.name) :
    ∀ t ∈ tasks, t.name ∈ schedNames (finalState tasks).sched := by
  have hinv := inv_final tasks hnd
  have hready := finalState_ready_nil tasks
  suffices h : ∀ (k : Nat), ∀ t ∈ tasks, r t.name < k →
      t.name ∈ schedNames (finalState tasks).sched by
    intro t ht
    exact h (r t.name + 1) t ht (Nat.lt_succ_self _)
  intro k
  induction k with
  | zero => intro t _ h; omega
  | succ k ih =>
    intro t ht hrk2
    have hall : ∀ d ∈ t.dependencies, d ∈ schedNames (finalState tasks).sched := by
      intro d hd
      rcases List.mem_map.mp (hdeps t ht d hd) with ⟨u, hu, rfl⟩
      exact ih u hu (by have := hrk t ht u.name hd; omega)
    have h0 : unschedCount (schedNames (finalState tasks).sched) t = 0 :=
      unschedCount_eq_zero.mpr hall
    have hdeg := hinv.deg t ht
    rcases hinv.zero_done t ht (by rw [hdeg, h0]; simp) with hmem | hmem
    · exact hmem
    · rw [hready] at hmem
      cases hmem

theorem sched_names_perm (tasks : List Task) (hnd : (tasks.map Task.name).Nodup)
    (hdeps : ∀ t ∈ tasks, ∀ d ∈ t.dependencies, d ∈ tasks.map Task.name)
    (r : String → Nat)
    (hrk : ∀ t ∈ tasks, ∀ d ∈ t.dependencies, r d < r t.name) :
    List.Perm (schedNames (finalState tasks).sched) (tasks.map Task.name) := by
  have hinv := inv_final tasks hnd
  have hndS : (schedNames (finalState tasks).sched).Nodup :=
    hinv.nodup_all.of_append_left
  have hsub1 : schedNames (finalState tasks).sched ⊆ tasks.map Task.name := by
    intro n hn
    rcases List.mem_map.mp hn with ⟨e, he, rfl⟩
    exact List.mem_map_of_mem Task.name (hinv.sched_sub e he)
  have hsub2 : tasks.map Task.name ⊆ schedNames (finalState tasks).sched := by
    intro n hn
    rcases List.mem_map.mp hn with ⟨t, ht, rfl⟩
    exact all_scheduled tasks hnd hdeps r hrk t ht
  exact (List.Nodup.subperm hndS hsub1).antisymm (List.Nodup.subperm hnd hsub2)

theorem sched_tasks_perm (tasks : List Task) (hnd : (tasks.map Task.name).Nodup)
    (hdeps : ∀ t ∈ tasks, ∀ d ∈ t.dependencies, d ∈ tasks.map Task.name)
    (r : String → Nat)
    (hrk : ∀ t ∈ tasks, ∀ d ∈ t.dependencies, r d < r t.name) :
    List.Perm ((finalState tasks).sched.map SchedEntry.task) tasks := by
  have hinv := inv_final tasks hnd
  have hmapmap : ((finalState tasks).sched.map SchedEntry.task).map Task.name =
      schedNames (finalState tasks).sched := by
    rw [List.map_map]
    rfl
  have hndS : (((finalState tasks).sched.map SchedEntry.task).map Task.name).Nodup := by
    rw [hmapmap]
    exact hinv.nodup_all.of_append_left
  have hnd1 : ((finalState tasks).sched.map SchedEntry.task).Nodup := hndS.of_map
  have hnd2 : tasks.Nodup := hnd.of_map
  have hsub1 : (finalState tasks).sched.map SchedEntry.task ⊆ tasks := by
    intro t ht
    rcases List.mem_map.mp ht with ⟨e, he, rfl⟩
    exact hinv.sched_sub e he
  have hsub2 : tasks ⊆ (finalState tasks).sched.map SchedEntry.task := by
    intro t ht
    have := all_scheduled tasks hnd hdeps r hrk t ht
    rcases List.mem_map.mp this with ⟨e, he, hname⟩
    have : e.task = t := name_inj hnd (hinv.sched_sub e he) ht hname
    exact this ▸ List.mem_map_of_mem SchedEntry.task he
  exact (List.Nodup.subperm hnd1 hsub1).antisymm (List.Nodup.subperm hnd2 hsub2)

theorem makespan_eq_sum (tasks : List Task) (hnd : (tasks.map Task.name).Nodup)
    (hdeps : ∀ t ∈ tasks, ∀ d ∈ t.dependencies, d ∈ tasks.map Task.name)
    (r : String → Nat)
    (hrk : ∀ t ∈ tasks, ∀ d ∈ t.dependencies, r d < r t.name) :
    (finalState tasks).time = (tasks.map fun t => t.duration).sum := by
  have hc := contig_sum _ _ _ (final_contig tasks)
  have hperm := (sched_tasks_perm tasks hnd hdeps r hrk).map fun t => t.duration
  have hmm : ((finalState tasks).sched.map SchedEntry.task).map (fun t => t.duration) =
      (finalState tasks).sched.map fun e => e.task.duration := by
    rw [List.map_map]
    rfl
  rw [hmm] at hperm
  rw [hc, hperm.sum_eq]
  ring

/-- Every scheduled entry of a duplicate-free input finishes before any
entry that depends on it starts. -/
theorem finish_before_start (tasks : List Task) (hnd : (tasks.map Task.name).Nodup)
    (hdur : ∀ t ∈ tasks, 0 ≤ t.duration)
    {ed et : SchedEntry} (hed : ed ∈ (finalState tasks).sched)
    (het : et ∈ (finalState tasks).sched)
    (hdep : ed.task.name ∈ et.task.dependencies) :
    ed.finish ≤ et.start := by
  have hinv := inv_final tasks hnd
  have hndS : (schedNames (finalState tasks).sched).Nodup :=
    hinv.nodup_all.of_append_left
  rcases depsBefore_locate (finalState tasks).sched [] et ed.task.name
      hinv.deps_before het hdep with hmem | ⟨l₁, ed2, l₂, heq, hname, hmem⟩
  · cases hmem
  · have hed2 : ed2 ∈ (finalState tasks).sched := by
      rw [heq]
      exact List.mem_append.mpr (Or.inr (List.mem_cons_self _ _))
    have heds : ed2 = ed :=
      List.inj_on_of_nodup_map hndS hed2 hed hname
    subst heds
    have hsplit := contig_split l₁ 0 (finalState tasks).time ed2 l₂
      (by rw [← heq]; exact final_contig tasks)
    have hdurs : ∀ e ∈ l₂, 0 ≤ e.task.duration := by
      intro e he
      refine hdur e.task (hinv.sched_sub e ?_)
      rw [heq]
      exact List.mem_append.mpr (Or.inr (List.mem_cons_of_mem _ he))
    exact (contig_bounds l₂ _ _ hsplit hdurs et hmem).1

theorem contig_finish_eq :
    ∀ (l : List SchedEntry) (a b : Int), Contig a l b →
      ∀ e ∈ l, e.finish = e.start + e.task.duration := by
  intro l
  induction l with
  | nil => intro a b _ e he; cases he
  | cons f fs ih =>
    intro a b h e he
    obtain ⟨hs, hf, hrest⟩ := h
    rcases List.mem_cons.mp he with rfl | he
    · rw [hf, hs]
    · exact ih _ _ hrest e he

theorem sum_max_zero_iff :
    ∀ (l : List SchedEntry),
      (l.map fun e => max 0 (e.finish - e.task.deadline)).sum = 0 ↔
        ∀ e ∈ l, e.finish ≤ e.task.deadline := by
  intro l
  induction l with
  | nil => simp
  | cons e es ih =>
    simp only [List.map_cons, List.sum_cons]
    have hnn : 0 ≤ (es.map fun e => max 0 (e.finish - e.task.deadline)).sum :=
      List.sum_nonneg fun x hx => by
        rcases List.mem_map.mp hx with ⟨u, _, rfl⟩
        exact le_max_left 0 _
    constructor
    · intro h
      have h1 : max 0 (e.finish - e.task.deadline) = 0 := by omega
      intro u hu
      rcases List.mem_cons.mp hu with rfl | hu
      · omega
      · exact ih.mp (by omega) u hu
    · intro h
      have h1 : max 0 (e.finish - e.task.deadline) = 0 := by
        have := h e (List.mem_cons_self e es)
        omega
      have h2 := ih.mpr fun u hu => h u (List.mem_cons_of_mem e hu)
      omega

theorem final_sched_sub (tasks : List Task) :
    ∀ e ∈ (finalState tasks).sched, e.task ∈ tasks := by
  have h := schedLoop_mem_tasks tasks (buildSucc tasks) tasks.length (initState tasks)
    ⟨fun t ht => List.mem_of_mem_filter (mem_sortByDeadline.mp ht), fun e he => by cases he⟩
  exact h.2

theorem final_sched_len (tasks : List Task) :
    (finalState tasks).sched.length ≤ tasks.length := by
  have h := schedLoop_sched_len (buildTaskMap tasks) (buildSucc tasks)
    tasks.length (initState tasks)
  have h2 : (initState tasks).sched.length = 0 := rfl
  have h3 : finalState tasks = schedLoop (buildTaskMap tasks) (buildSucc tasks)
      tasks.length (initState tasks) := rfl
  rw [h3]
  omega

/-! ### Inputs used as concrete witnesses and counterexamples -/

/-- A two-task dependency cycle. -/
def cycTasks : List Task := [⟨"X", 1, 1, ["Y"]⟩, ⟨"Y", 1, 1, ["X"]⟩]

/-- Two tasks sharing the name `"A"`. -/
def dupTasks : List Task := [⟨"A", 1, 1, []⟩, ⟨"A", 2, 2, []⟩]

/-- A task whose dependency name `"X"` has no corresponding task. -/
def urTasks : List Task := [⟨"B", 1, 1, ["X"]⟩]

/-- Duplicate name `"T"`: the first `"T"` lists a dependency, the second
does not, so the last-wins in-degree dictionary marks `"T"` ready. -/
def dupNameTasks : List Task :=
  [⟨"T", 1, 1, ["D"]⟩, ⟨"T", 1, 9, []⟩, ⟨"D", 1, 9, []⟩]

/-- A topological rank for the example task set. -/
def exRank : String → Nat := fun n =>
  if n = "D" then 2 else if n = "B" then 1 else if n = "C" then 1 else 0

/-! ### The claims -/

/-- C1: for every valid acyclic input — unique task names, every dependency
name present among the tasks, acyclicity witnessed by a rank function, and
durations positive as the data model requires — `schedule_tasks` schedules
every task exactly once (the scheduled names are a permutation of the input
names), and for every dependency edge `d → t` the entry of `d` finishes no
later than the entry of `t` starts. -/
theorem claim_C1 (tasks : List Task)
    (hnd : (tasks.map Task.name).Nodup)
    (hdeps : ∀ t ∈ tasks, ∀ d ∈ t.dependencies, d ∈ tasks.map Task.name)
    (hacyc : ∃ r : String → Nat, ∀ t ∈ tasks, ∀ d ∈ t.dependencies, r d < r t.name)
    (hdur : ∀ t ∈ tasks, 0 < t.duration) :
    List.Perm (schedNames (schedule_tasks tasks).1) (tasks.map Task.name) ∧
      ∀ t ∈ tasks, ∀ d ∈ t.dependencies,
        ∀ ed ∈ (schedule_tasks tasks).1, ∀ et ∈ (schedule_tasks tasks).1,
          ed.task.name = d → et.task.name = t.name → ed.finish ≤ et.start := by
  rcases hacyc with ⟨r, hrk⟩
  have h1 : (schedule_tasks tasks).1 = (finalState tasks).sched := rfl
  rw [h1]
  constructor
  · exact sched_names_perm tasks hnd hdeps r hrk
  · intro t ht d hd ed hed et het hedname hetname
    have hinv := inv_final tasks hnd
    have hett : et.task = t := name_inj hnd (hinv.sched_sub et het) ht hetname
    refine finish_before_start tasks hnd (fun u hu => le_of_lt (hdur u hu)) hed het ?_
    rw [hedname, hett]
    exact hd

/-- Witness for C1: the hypotheses hold at the example input and the
permutation conclusion follows by applying `claim_C1` there. -/
theorem claim_C1_witness :
    List.Perm (schedNames (schedule_tasks exTasks).1) (exTasks.map Task.name) :=
  (claim_C1 exTasks (by decide) (by decide) ⟨exRank, by decide⟩ (by decide)).1

/-- C2: on the example input from the source's `__main__` block the
schedule is E(0→5), A(5→8), B(8→10), C(10→14), D(14→15), the makespan is
15 and the total tardiness is 8. -/
theorem claim_C2 :
    schedule_tasks exTasks =
      ([⟨⟨"E", 5, 7, []⟩, 0, 5⟩, ⟨⟨"A", 3, 10, []⟩, 5, 8⟩,
        ⟨⟨"B", 2, 8, ["A"]⟩, 8, 10⟩, ⟨⟨"C", 4, 12, ["A"]⟩, 10, 14⟩,
        ⟨⟨"D", 1, 11, ["B", "C"]⟩, 14, 15⟩], 15, 8) := by
  decide

/-- C3 counterexample: on a two-task dependency cycle `schedule_tasks`
terminates normally and silently returns the empty partial schedule
`([], 0, 0)` — strictly fewer entries than tasks — and its return value
carries no unscheduled-name report at all. -/
theorem claim_C3_counterexample :
    schedule_tasks cycTasks = ([], 0, 0) ∧
      (schedule_tasks cycTasks).1.length < cycTasks.length := by
  decide

/-- C3 (amended): when the loop terminates with fewer scheduled tasks than
the task count, `schedule_tasks` silently returns the shorter partial
schedule: an ordinary (schedule, makespan, tardiness) triple whose
schedule is drawn from the input and never exceeds it in length; no set of
unscheduled task names is reported. -/
theorem claim_C3 (tasks : List Task) :
    (schedule_tasks tasks).1.length ≤ tasks.length ∧
      ∀ e ∈ (schedule_tasks tasks).1, e.task ∈ tasks :=
  ⟨final_sched_len tasks, final_sched_sub tasks⟩

/-- C4 counterexample: an input with a duplicate task name is accepted
without any error and a full two-entry schedule is produced, contradicting
"construction fails with InvalidGraphError and no schedule is produced"
(no such exception exists anywhere in the code). -/
theorem claim_C4_counterexample :
    schedule_tasks dupTasks =
      ([⟨⟨"A", 1, 1, []⟩, 0, 1⟩, ⟨⟨"A", 2, 2, []⟩, 1, 3⟩], 3, 1) := by
  decide

/-- C4 (amended): the code performs no input validation and cannot fail:
`schedule_tasks` returns a plain triple on every input, duplicate-name
inputs included; for a unique-name input, a task referencing a dependency
name with no corresponding task is silently never scheduled instead of
being rejected. -/
theorem claim_C4 (tasks : List Task) (hnd : (tasks.map Task.name).Nodup) :
    ∀ t ∈ tasks, (∃ d ∈ t.dependencies, d ∉ tasks.map Task.name) →
      t.name ∉ schedNames (schedule_tasks tasks).1 := by
  rintro t ht ⟨d, hd, hdnot⟩ hmem
  have hinv := inv_final tasks hnd
  rcases List.mem_map.mp hmem with ⟨e, he, hname⟩
  have het : e.task = t := name_inj hnd (hinv.sched_sub e he) ht hname
  have hdmem := depsBefore_mem _ [] e hinv.deps_before he d (het ▸ hd)
  rw [List.nil_append] at hdmem
  rcases List.mem_map.mp hdmem with ⟨e2, he2, rfl⟩
  exact hdnot (List.mem_map_of_mem Task.name (hinv.sched_sub e2 he2))

/-- Witness for C4 (amended) at the unresolved-dependency input. -/
theorem claim_C4_witness :
    ("B" : String) ∉ schedNames (schedule_tasks urTasks).1 :=
  claim_C4 urTasks (by decide) ⟨"B", 1, 1, ["X"]⟩ (by decide)
    ⟨"X", by decide, by decide⟩

/-- C5: for every schedulable input (unique names, dependencies present,
acyclic) the returned makespan equals the sum of all task durations; for
the empty input the makespan is 0. -/
theorem claim_C5 (tasks : List Task)
    (hnd : (tasks.map Task.name).Nodup)
    (hdeps : ∀ t ∈ tasks, ∀ d ∈ t.dependencies, d ∈ tasks.map Task.name)
    (hacyc : ∃ r : String → Nat, ∀ t ∈ tasks, ∀ d ∈ t.dependencies, r d < r t.name) :
    (schedule_tasks tasks).2.1 = (tasks.map fun t => t.duration).sum ∧
      (schedule_tasks ([] : List Task)).2.1 = 0 := by
  rcases hacyc with ⟨r, hrk⟩
  exact ⟨makespan_eq_sum tasks hnd hdeps r hrk, rfl⟩

/-- Witness for C5 at the example input: the makespan equals the duration
sum, which evaluates to 15. -/
theorem claim_C5_witness :
    (schedule_tasks exTasks).2.1 = (exTasks.map fun t => t.duration).sum ∧
      (exTasks.map fun t => t.duration).sum = 15 :=
  ⟨(claim_C5 exTasks (by decide) (by decide) ⟨exRank, by decide⟩).1, by decide⟩

/-- C6: on every input the schedule is non-idling: each scheduled entry
starts exactly when the previous one finishes, and the first entry starts
at time 0. -/
theorem claim_C6 (tasks : List Task) :
    List.Chain' (fun p q => q.start = p.finish) (schedule_tasks tasks).1 ∧
      ∀ e es, (schedule_tasks tasks).1 = e :: es → e.start = 0 := by
  have hc := final_contig tasks
  have h1 : (schedule_tasks tasks).1 = (finalState tasks).sched := rfl
  constructor
  · rw [h1]
    exact contig_chain _ _ _ hc
  · intro e es heq
    rw [h1] at heq
    rw [heq] at hc
    exact hc.1

/-- Witness for C6 at the example input: its first scheduled entry is the
one for E and starts at 0. -/
theorem claim_C6_witness :
    List.Chain' (fun p q => q.start = p.finish) (schedule_tasks exTasks).1 ∧
      (⟨⟨"E", 5, 7, []⟩, 0, 5⟩ : SchedEntry).start = 0 :=
  ⟨(claim_C6 exTasks).1, (claim_C6 exTasks).2 _
    [⟨⟨"A", 3, 10, []⟩, 5, 8⟩, ⟨⟨"B", 2, 8, ["A"]⟩, 8, 10⟩,
     ⟨⟨"C", 4, 12, ["A"]⟩, 10, 14⟩, ⟨⟨"D", 1, 11, ["B", "C"]⟩, 14, 15⟩]
    (by decide)⟩

/-- C7: on every input the returned total tardiness equals the sum over the
scheduled entries of `max 0 (finish - deadline)`; it is non-negative, and
it is 0 exactly when every scheduled task finishes at or before its
deadline. -/
theorem claim_C7 (tasks : List Task) :
    (schedule_tasks tasks).2.2 =
        ((schedule_tasks tasks).1.map fun e => max 0 (e.finish - e.task.deadline)).sum ∧
      0 ≤ (schedule_tasks tasks).2.2 ∧
      ((schedule_tasks tasks).2.2 = 0 ↔
        ∀ e ∈ (schedule_tasks tasks).1, e.finish ≤ e.task.deadline) := by
  have h : (schedule_tasks tasks).2.2 =
      ((finalState tasks).sched.map fun e => max 0 (e.finish - e.task.deadline)).sum := by
    have := tard_foldl (finalState tasks).sched 0
    simpa using this
  have h1 : (schedule_tasks tasks).1 = (finalState tasks).sched := rfl
  refine ⟨by rw [h, h1], ?_, ?_⟩
  · rw [h]
    refine List.sum_nonneg fun x hx => ?_
    rcases List.mem_map.mp hx with ⟨u, _, rfl⟩
    exact le_max_left 0 _
  · rw [h, h1]
    exact sum_max_zero_iff _

/-- C10: the main loop terminates on every input, cyclic or not: an
iteration budget of `tasks.length` always drains the ready queue (each
task object enters the queue at most once), and consequently at most
`tasks.length` entries are ever scheduled. -/
theorem claim_C10 (tasks : List Task) :
    (finalState tasks).ready = [] ∧
      (finalState tasks).sched.length ≤ tasks.length :=
  ⟨finalState_ready_nil tasks, final_sched_len tasks⟩

/-- C9 counterexample: with a duplicated task name the loop schedules the
first `"T"` task at time 0 although its dependency `"D"` only finishes at
time 3 (its entry is last): a task whose dependency is unmet still gets
start and finish times assigned. -/
theorem claim_C9_counterexample :
    schedule_tasks dupNameTasks =
      ([⟨⟨"T", 1, 1, ["D"]⟩, 0, 1⟩, ⟨⟨"T", 1, 9, []⟩, 1, 2⟩,
        ⟨⟨"D", 1, 9, []⟩, 2, 3⟩], 3, 0) ∧
      "D" ∈ (⟨"T", 1, 1, ["D"]⟩ : Task).dependencies := by
  decide

/-- C9 (amended): on every input each scheduled entry satisfies
`finish = start + duration`; and for inputs with unique task names a task
with an unmet dependency is never scheduled — equivalently, every
dependency of a scheduled task is itself scheduled strictly earlier (a
task without an entry keeps its times unset in the source). -/
theorem claim_C9 (tasks : List Task) :
    (∀ e ∈ (schedule_tasks tasks).1, e.finish = e.start + e.task.duration) ∧
      ((tasks.map Task.name).Nodup →
        ∀ e ∈ (schedule_tasks tasks).1, ∀ d ∈ e.task.dependencies,
          ∃ l₁ ed l₂, (schedule_tasks tasks).1 = l₁ ++ ed :: l₂ ∧
            ed.task.name = d ∧ e ∈ l₂) := by
  have h1 : (schedule_tasks tasks).1 = (finalState tasks).sched := rfl
  rw [h1]
  constructor
  · exact contig_finish_eq _ _ _ (final_contig tasks)
  · intro hnd e he d hd
    have hinv := inv_final tasks hnd
    rcases depsBefore_locate (finalState tasks).sched [] e d
        hinv.deps_before he hd with hmem | hfound
    · cases hmem
    · exact hfound

/-- Witness for C9 (amended): at the example input, dependency "A" of the
scheduled entry for B appears strictly earlier in the schedule. -/
theorem claim_C9_witness :
    ∃ l₁ ed l₂, (schedule_tasks exTasks).1 = l₁ ++ ed :: l₂ ∧
      ed.task.name = "A" ∧ (⟨⟨"B", 2, 8, ["A"]⟩, 8, 10⟩ : SchedEntry) ∈ l₂ :=
  (claim_C9 exTasks).2 (by decide) ⟨⟨"B", 2, 8, ["A"]⟩, 8, 10⟩ (by decide) "A" (by decide)

/-! ### Stability of the EDF tie-break -/

/-- The ready queue after one iteration, in closed form (no invariant
needed, only duplicate-freeness of the input names). -/
theorem step_ready_eq (tasks : List Task) (hnd : (tasks.map Task.name).Nodup)
    (cur : Task) (rest : List Task) (st : SState) :
    (schedStep (buildTaskMap tasks) (buildSucc tasks) cur rest st).ready =
      sortByDeadline (rest ++ tasks.filter fun t =>
        decide (1 ≤ st.in_degree t.name ∧
          st.in_degree t.name ≤ (t.dependencies.count cur.name : Int))) := by
  rw [schedStep_ready, buildSucc_eq, ps_succList_ready _ tasks hnd,
    appendedSpec_filter _ tasks _ _ (fun t ht => buildTaskMap_eq hnd ht)]

/-- If two equal-deadline tasks sit in the queue with `X` ahead of `Y`,
then `X` is scheduled before `Y` (provided the loop drains the queue). -/
theorem queue_stable (tasks : List Task) (hnd : (tasks.map Task.name).Nodup) :
    ∀ (f : Nat) (st : SState), Inv tasks st →
      (schedLoop (buildTaskMap tasks) (buildSucc tasks) f st).ready = [] →
      ∀ X Y : Task, X.deadline = Y.deadline → X ≠ Y →
        List.Sublist [X, Y] st.ready →
        ∃ eX eY, eX.task = X ∧ eY.task = Y ∧
          List.Sublist [eX, eY]
            (schedLoop (buildTaskMap tasks) (buildSucc tasks) f st).sched := by
  intro f
  induction f with
  | zero =>
    intro st _ hempty X Y _ _ hsub
    rw [schedLoop_zero] at hempty
    rw [hempty] at hsub
    simp at hsub
  | succ f ih =>
    intro st hinv hempty X Y hdl hne hsub
    cases hr : st.ready with
    | nil =>
      rw [hr] at hsub
      simp at hsub
    | cons cur rest =>
      rw [schedLoop_cons _ _ _ _ _ _ hr] at hempty ⊢
      rw [hr] at hsub
      have hinv2 := inv_step tasks hnd cur rest st hr hinv
      cases hsub with
      | cons _ h =>
        -- both X and Y remain in the rest of the queue: recurse
        refine ih _ hinv2 hempty X Y hdl hne ?_
        rw [step_ready_eq tasks hnd]
        refine sortByDeadline_stable hdl ?_
        exact h.trans (List.sublist_append_left rest _)
      | cons₂ _ h =>
        -- the head is X: it is scheduled now, Y later
        have hY : Y ∈ rest := List.singleton_sublist.mp h
        have hXtasks : X ∈ tasks := hinv.ready_sub X (by rw [hr]; exact List.mem_cons_self _ _)
        have hYtasks : Y ∈ tasks :=
          hinv.ready_sub Y (by rw [hr]; exact List.mem_cons_of_mem X hY)
        have hnameXY : X.name ≠ Y.name := fun he => hne (name_inj hnd hXtasks hYtasks he)
        -- Y stays in the queue of the stepped state
        have hYready : Y ∈ (schedStep (buildTaskMap tasks) (buildSucc tasks) X rest st).ready := by
          rw [schedStep_ready]
          rcases ps_ready_extend (buildTaskMap tasks) (buildSucc tasks X.name)
            rest st.in_degree with ⟨app2, happ2⟩
          rw [happ2]
          exact mem_sortByDeadline.mpr (List.mem_append.mpr (Or.inl hY))
        -- hence its name ends up among the scheduled names of the final state
        have hpersist := schedLoop_persist (buildTaskMap tasks) (buildSucc tasks) f
          (schedStep (buildTaskMap tasks) (buildSucc tasks) X rest st) Y.name
          (Or.inl (List.mem_map_of_mem Task.name hYready))
        rw [hempty] at hpersist
        rcases hpersist with habs | hYfinal
        · simp at habs
        -- the schedule of the final state extends the stepped schedule
        rcases schedLoop_sched_extend (buildTaskMap tasks) (buildSucc tasks) f
          (schedStep (buildTaskMap tasks) (buildSucc tasks) X rest st) with ⟨tail, htail⟩
        -- Y's name is not among the stepped schedule's names
        have hYnot : Y.name ∉
            schedNames (schedStep (buildTaskMap tasks) (buildSucc tasks) X rest st).sched := by
          rw [schedStep_sched, schedNames_snoc]
          intro hmem
          rcases List.mem_append.mp hmem with hmem | hmem
          · -- Y's name already scheduled contradicts nodup across sched ++ ready
            have hnall := hinv.nodup_all
            rcases List.nodup_append.mp hnall with ⟨_, _, hdisj⟩
            refine hdisj hmem ?_
            rw [hr]
            simp only [List.map_cons, List.mem_cons]
            exact Or.inr (List.mem_map_of_mem Task.name hY)
          · exact hnameXY (List.mem_singleton.mp hmem).symm
        -- find Y's entry inside the tail
        rw [htail, schedNames_append] at hYfinal
        have hYtail : Y.name ∈ schedNames tail := by
          rcases List.mem_append.mp hYfinal with hmem | hmem
          · exact absurd hmem hYnot
          · exact hmem
        rcases List.mem_map.mp hYtail with ⟨eY, heY, hname⟩
        -- identify eY's task with Y
        have hfinv := inv_loop tasks hnd f
          (schedStep (buildTaskMap tasks) (buildSucc tasks) X rest st) hinv2
        have heYmem : eY ∈ (schedLoop (buildTaskMap tasks) (buildSucc tasks) f
            (schedStep (buildTaskMap tasks) (buildSucc tasks) X rest st)).sched := by
          rw [htail]
          exact List.mem_append.mpr (Or.inr heY)
        have heYtask : eY.task = Y := name_inj hnd (hfinv.sched_sub eY heYmem) hYtasks hname
        refine ⟨⟨X, st.time, st.time + X.duration⟩, eY, rfl, heYtask, ?_⟩
        rw [htail, schedStep_sched, List.append_assoc]
        refine List.Sublist.trans ?_ (List.sublist_append_right st.sched _)
        rw [List.singleton_append]
        exact (List.singleton_sublist.mpr heY).cons₂ _

/-- The loop state after `k` iterations. -/
def stateAt (tasks : List Task) (k : Nat) : SState :=
  schedLoop (buildTaskMap tasks) (buildSucc tasks) k (initState tasks)

theorem stateAt_succ (tasks : List Task) (k : Nat) :
    stateAt tasks (k + 1) =
      schedLoop (buildTaskMap tasks) (buildSucc tasks) 1 (stateAt tasks k) :=
  schedLoop_add _ _ k 1 (initState tasks)

/-- `X` becomes ready at point `k`: it sits in the ready queue after `k`
iterations and (for `k > 0`) was not in the queue one iteration earlier;
`k = 0` means `X` is ready from the start. -/
def BecameReadyAt (tasks : List Task) (X : Task) (k : Nat) : Prop :=
  X ∈ (stateAt tasks k).ready ∧ (k = 0 ∨ X ∉ (stateAt tasks (k - 1)).ready)

instance (tasks : List Task) (X : Task) (k : Nat) :
    Decidable (BecameReadyAt tasks X k) := by
  unfold BecameReadyAt
  infer_instance

/-- Two equal-deadline tasks of the initial ready queue keep their input
order there. -/
theorem initial_pair (tasks : List Task) (X Y : Task)
    (hdl : X.deadline = Y.deadline) (hXY : List.Sublist [X, Y] tasks)
    (hX : X ∈ (initState tasks).ready) (hY : Y ∈ (initState tasks).ready) :
    List.Sublist [X, Y] (initState tasks).ready := by
  have hpX := (List.mem_filter.mp (mem_sortByDeadline.mp hX)).2
  have hpY := (List.mem_filter.mp (mem_sortByDeadline.mp hY)).2
  refine sortByDeadline_stable hdl ?_
  have hfil := hXY.filter fun t => decide (buildInDeg tasks t.name = 0)
  have heq : List.filter (fun t => decide (buildInDeg tasks t.name = 0)) [X, Y] = [X, Y] := by
    simp [List.filter_cons, hpX, hpY]
  rw [heq] at hfil
  exact hfil

/-- Two equal-deadline tasks that become ready at the same point sit in
that state's queue in input order. -/
theorem same_point_pair (tasks : List Task) (hnd : (tasks.map Task.name).Nodup)
    (X Y : Task) (hdl : X.deadline = Y.deadline)
    (hXY : List.Sublist [X, Y] tasks) (k : Nat)
    (hX : BecameReadyAt tasks X k) (hY : BecameReadyAt tasks Y k) :
    List.Sublist [X, Y] (stateAt tasks k).ready := by
  cases k with
  | zero => exact initial_pair tasks X Y hdl hXY hX.1 hY.1
  | succ j =>
    have hXr := hX.1
    have hYr := hY.1
    have hXnot : X ∉ (stateAt tasks j).ready := by
      rcases hX.2 with h0 | h
      · exact absurd h0 (Nat.succ_ne_zero j)
      · exact h
    have hYnot : Y ∉ (stateAt tasks j).ready := by
      rcases hY.2 with h0 | h
      · exact absurd h0 (Nat.succ_ne_zero j)
      · exact h
    cases hr : (stateAt tasks j).ready with
    | nil =>
      exfalso
      have heq : stateAt tasks (j + 1) = stateAt tasks j := by
        rw [stateAt_succ]
        exact schedLoop_nil _ _ 1 _ hr
      rw [heq] at hXr
      exact hXnot hXr
    | cons cur rest =>
      have hstep : stateAt tasks (j + 1) =
          schedStep (buildTaskMap tasks) (buildSucc tasks) cur rest (stateAt tasks j) := by
        rw [stateAt_succ, schedLoop_cons _ _ 0 _ cur rest hr, schedLoop_zero]
      rw [hstep, step_ready_eq tasks hnd] at hXr hYr ⊢
      have hXapp : X ∈ tasks.filter fun t =>
          decide (1 ≤ (stateAt tasks j).in_degree t.name ∧
            (stateAt tasks j).in_degree t.name ≤ (t.dependencies.count cur.name : Int)) := by
        rcases List.mem_append.mp (mem_sortByDeadline.mp hXr) with hmem | hmem
        · exact absurd
            (show X ∈ (stateAt tasks j).ready by
              rw [hr]; exact List.mem_cons_of_mem cur hmem) hXnot
        · exact hmem
      have hYapp : Y ∈ tasks.filter fun t =>
          decide (1 ≤ (stateAt tasks j).in_degree t.name ∧
            (stateAt tasks j).in_degree t.name ≤ (t.dependencies.count cur.name : Int)) := by
        rcases List.mem_append.mp (mem_sortByDeadline.mp hYr) with hmem | hmem
        · exact absurd
            (show Y ∈ (stateAt tasks j).ready by
              rw [hr]; exact List.mem_cons_of_mem cur hmem) hYnot
        · exact hmem
      refine sortByDeadline_stable hdl ?_
      refine List.Sublist.trans ?_ (List.sublist_append_right rest _)
      have hfil := hXY.filter fun t =>
        decide (1 ≤ (stateAt tasks j).in_degree t.name ∧
          (stateAt tasks j).in_degree t.name ≤ (t.dependencies.count cur.name : Int))
      have heq2 : List.filter (fun t =>
          decide (1 ≤ (stateAt tasks j).in_degree t.name ∧
            (stateAt tasks j).in_degree t.name ≤ (t.dependencies.count cur.name : Int)))
          [X, Y] = [X, Y] := by
        have hx := of_decide_eq_true (List.mem_filter.mp hXapp).2
        have hy := of_decide_eq_true (List.mem_filter.mp hYapp).2
        simp [List.filter_cons, hx, hy]
      rw [heq2] at hfil
      exact hfil

/-- Input for the stability witness: X and Y share deadline 5 and become
ready together when P finishes. -/
def stabTasks : List Task :=
  [⟨"P", 1, 1, []⟩, ⟨"X", 2, 5, ["P"]⟩, ⟨"Y", 3, 5, ["P"]⟩]

/-- C8: for a duplicate-free input, two tasks with equal deadlines that
become ready at the same point are scheduled in their input order — the
ready queue behaves as a stable sort keyed on deadline, preserving
insertion order on ties. -/
theorem claim_C8 (tasks : List Task) (X Y : Task)
    (hnd : (tasks.map Task.name).Nodup)
    (hXY : List.Sublist [X, Y] tasks)
    (hdl : X.deadline = Y.deadline)
    (hsame : ∃ k, BecameReadyAt tasks X k ∧ BecameReadyAt tasks Y k) :
    ∃ eX eY, eX.task = X ∧ eY.task = Y ∧
      List.Sublist [eX, eY] (schedule_tasks tasks).1 := by
  rcases hsame with ⟨k, hX, hY⟩
  have hne : X ≠ Y := by
    have hnd2 : ([X, Y] : List Task).Nodup := hXY.nodup hnd.of_map
    rcases List.nodup_cons.mp hnd2 with ⟨hx, _⟩
    exact fun he => hx (he ▸ List.mem_singleton.mpr rfl)
  have hqueue := same_point_pair tasks hnd X Y hdl hXY k hX hY
  by_cases hk : k ≤ tasks.length
  · have harith : k + (tasks.length - k) = tasks.length := by omega
    have hcomp : schedLoop (buildTaskMap tasks) (buildSucc tasks)
        (tasks.length - k) (stateAt tasks k) = finalState tasks := by
      rw [stateAt, ← schedLoop_add, harith]
      rfl
    have hIk : Inv tasks (stateAt tasks k) :=
      inv_loop tasks hnd k (initState tasks) (inv_init tasks hnd)
    have hres := queue_stable tasks hnd (tasks.length - k) (stateAt tasks k) hIk
      (by rw [hcomp]; exact finalState_ready_nil tasks) X Y hdl hne hqueue
    rw [hcomp] at hres
    exact hres
  · exfalso
    have heq : stateAt tasks k = finalState tasks := by
      have harith : k = tasks.length + (k - tasks.length) := by omega
      rw [stateAt, harith, schedLoop_add]
      exact schedLoop_nil _ _ _ _ (finalState_ready_nil tasks)
    have hmem := hX.1
    rw [heq, finalState_ready_nil tasks] at hmem
    cases hmem

/-- Witness for C8: in `stabTasks`, X and Y both become ready at point 1
(when P finishes), have equal deadlines, and are scheduled in input
order. -/
theorem claim_C8_witness :
    ∃ eX eY, eX.task = (⟨"X", 2, 5, ["P"]⟩ : Task) ∧
      eY.task = (⟨"Y", 3, 5, ["P"]⟩ : Task) ∧
      List.Sublist [eX, eY] (schedule_tasks stabTasks).1 :=
  claim_C8 stabTasks _ _ (by decide)
    (List.Sublist.cons _ (List.Sublist.refl _)) rfl
    ⟨1, by decide, by decide⟩

end TaskManage
